import Mathlib

/-!
Verification of the WSA_Brolga_Sequences_Manifest aggregation script
(src/run.py) against its natural-language specification.

The script orchestrates filesystem moves and deletions driven by an XML
manifest.  We shallowly embed the state it manipulates as a finite
filesystem: a path is a list of components, and a filesystem is a finite
association list from file paths to (content, writable) pairs together
with a finite set of existing directories.  Each Python filesystem
primitive used by run.py (os.path.exists, os.path.isdir, os.listdir,
shutil.move, shutil.rmtree, os.makedirs, os.chmod via a recursive walk)
becomes an executable Lean function on this state, and each function of
run.py becomes a Lean function composed of those primitives.

Python strings holding paths are embedded as component lists; run.py only
ever builds paths with os.path.join of single components (plus one
rstrip("/") of a sparse sub-path, which we embed by taking the sub-path
already split into components).  Branches of shutil.move that raise in
Python (missing source, directory moved onto an existing file) are
embedded as the identity; every theorem that depends on a move succeeding
carries hypotheses placing it in the non-raising cases, and the one claim
about not raising (metadata cleanup) is settled against an explicit
Except-style variant of the cleanup code.
-/

namespace Brolga

/-- A filesystem path, split into components. -/
abbrev Path := List String

/-- Filesystem state: files (path, content, writable bit) and directories. -/
structure FS where
  files : List (Path × String × Bool)
  dirs : List Path
deriving DecidableEq

namespace FS

/-- Lookup of the (content, writable) entry stored for a file path. -/
def fileEntry (fs : FS) (p : Path) : Option (String × Bool) :=
  (fs.files.find? (fun e => e.1 == p)).map (fun e => e.2)

/-- Content stored for a file path, if any. -/
def fileContent (fs : FS) (p : Path) : Option String :=
  (fs.fileEntry p).map (fun e => e.1)

/-- Embedding of os.path.isdir. -/
def isDir (fs : FS) (p : Path) : Bool :=
  fs.dirs.contains p

/-- Embedding of os.path.exists: a directory or a file is present at p. -/
def existsPath (fs : FS) (p : Path) : Bool :=
  fs.isDir p || (fs.fileEntry p).isSome

/-- Create or overwrite the file at p with the given entry. -/
def setFile (fs : FS) (p : Path) (e : String × Bool) : FS :=
  { fs with files := (p, e) :: fs.files.filter (fun f => !(f.1 == p)) }

/-- Embedding of os.remove. -/
def removeFile (fs : FS) (p : Path) : FS :=
  { fs with files := fs.files.filter (fun f => !(f.1 == p)) }

/-- Embedding of shutil.rmtree: delete p and everything below it. -/
def rmtree (fs : FS) (p : Path) : FS :=
  { files := fs.files.filter (fun f => !(p.isPrefixOf f.1)),
    dirs := fs.dirs.filter (fun d => !(p.isPrefixOf d)) }

/-- Embedding of the chmod walk of delete_git_folders: make every file
at or below p writable. -/
def chmodTree (fs : FS) (p : Path) : FS :=
  { fs with files := fs.files.map (fun f => if p.isPrefixOf f.1 then (f.1, f.2.1, true) else f) }

/-- Rename the subtree rooted at src to dst (the os.rename underlying a
directory shutil.move). -/
def renameTree (fs : FS) (src dst : Path) : FS :=
  { files := fs.files.map (fun f => if src.isPrefixOf f.1 then (dst ++ f.1.drop src.length, f.2) else f),
    dirs := fs.dirs.map (fun d => if src.isPrefixOf d then dst ++ d.drop src.length else d) }

/-- Name of q when q is a direct child of p. -/
def childNameOf (p q : Path) : Option String :=
  if p.isPrefixOf q && q.length == p.length + 1 then q.getLast? else none

/-- Embedding of os.listdir: names of the direct children of p.  The
order (directories in storage order, then files in storage order) is the
deterministic stand-in for the unspecified order os.listdir returns. -/
def listdir (fs : FS) (p : Path) : List String :=
  (fs.dirs.filterMap (childNameOf p) ++
    fs.files.filterMap (fun e => childNameOf p e.1)).dedup

/-- Embedding of os.makedirs: create every missing ancestor of p and p. -/
def mkdirs (fs : FS) (p : Path) : FS :=
  { fs with dirs :=
      (((List.range p.length).map (fun i => p.take (i + 1))).filter
        (fun q => !fs.dirs.contains q)) ++ fs.dirs }

/-- Embedding of shutil.move src dst.  When dst is an existing directory
the source is moved inside it under its own base name; a source file
otherwise lands exactly at dst, overwriting a file already there (the
os.rename semantics).  The branches in which shutil.move raises are
embedded as the identity. -/
def move (fs : FS) (src dst : Path) : FS :=
  if fs.isDir src then
    if fs.isDir dst then fs.renameTree src (dst ++ [src.getLastD ""])
    else if fs.existsPath dst then fs
    else fs.renameTree src dst
  else
    match fs.fileEntry src with
    | some e =>
        if fs.isDir dst then (fs.removeFile src).setFile (dst ++ [src.getLastD ""]) e
        else (fs.removeFile src).setFile dst e
    | none => fs

/-- Length of the longest directory path; bounds the depth any walk of
the filesystem can reach. -/
def depth (fs : FS) : Nat :=
  fs.dirs.foldr (fun d m => max d.length m) 0

/-- Direct children of p that are directories (the dirs component of an
os.walk triple). -/
def childDirs (fs : FS) (p : Path) : List String :=
  (fs.listdir p).filter (fun n => fs.isDir (p ++ [n]))

/-- Direct children of p that are not directories (the files component
of an os.walk triple). -/
def childFiles (fs : FS) (p : Path) : List String :=
  (fs.listdir p).filter (fun n => !fs.isDir (p ++ [n]))

end FS

/-! ### move_files_to_parent and the sparse flattening of clone_repo -/

/-- Embedding of move_files_to_parent(path, sparse_path).  The Python
sparse_path string (after rstrip of a trailing slash) is taken already
split into components. -/
def move_files_to_parent (fs : FS) (path sparse : Path) : FS :=
  let target := path ++ sparse
  if fs.existsPath target && fs.isDir target then
    ((fs.listdir target).foldl (fun acc n => acc.move (target ++ [n]) (path ++ [n])) fs).rmtree target
  else fs

/-- Embedding of the final loop of clone_repo: one move_files_to_parent
call per sparse path. -/
def flattenSparse (fs : FS) (path : Path) (sparsePaths : List Path) : FS :=
  sparsePaths.foldl (fun acc sp => move_files_to_parent acc path sp) fs

/-! ### delete_git_folders

The cleanup models the permission regime run.py is written for: removing
a tree or a file fails with PermissionError exactly when a non-writable
file stands below it, and chmod always succeeds.  walkDel embeds the
os.walk loop: at each visited directory, a ".git" child directory is
chmod-ed and deleted before the walk descends into the children
(descending into the just-deleted ".git" then finds nothing).  The fuel
argument dominates the walk depth; run.py needs none because the
directory tree is finite, and delete_git_folders instantiates it with a
bound exceeding every directory depth of the state. -/

/-- True when deleting the tree below p would raise PermissionError:
some file at or below p is not writable. -/
def rmtreeBlocked (fs : FS) (p : Path) : Bool :=
  fs.files.any (fun e => p.isPrefixOf e.1 && !e.2.2)

/-- Remove the files below p that os.remove can delete (the writable
ones); the per-file fallback loop of delete_git_folders. -/
def removeFilesUnder (fs : FS) (p : Path) : FS :=
  { fs with files := fs.files.filter (fun e => !(p.isPrefixOf e.1 && e.2.2)) }

/-- Embedding of the body run for one found .git folder: chmod every
file beneath it, try rmtree, and on PermissionError remove files
individually and retry. -/
def deleteGitDir (fs : FS) (p : Path) : FS :=
  let fs1 := fs.chmodTree p
  if rmtreeBlocked fs1 p then (removeFilesUnder fs1 p).rmtree p
  else fs1.rmtree p

/-- Except-style variant of deleteGitDir: none when the final rmtree
retry would still raise. -/
def deleteGitDirE (fs : FS) (p : Path) : Option FS :=
  let fs1 := fs.chmodTree p
  if rmtreeBlocked fs1 p then
    let fs2 := removeFilesUnder fs1 p
    if rmtreeBlocked fs2 p then none else some (fs2.rmtree p)
  else some (fs1.rmtree p)

/-- Embedding of the os.walk loop of delete_git_folders, with fuel. -/
def walkDel : FS → Path → Nat → FS
  | fs, _, 0 => fs
  | fs, base, fuel + 1 =>
    if fs.isDir base then
      let ds := fs.childDirs base
      let fs1 := if ds.contains ".git" then deleteGitDir fs (base ++ [".git"]) else fs
      ds.foldl (fun acc n => walkDel acc (base ++ [n]) fuel) fs1
    else fs

/-- Except-style variant of walkDel: none as soon as a deletion raises. -/
def walkDelE : FS → Path → Nat → Option FS
  | fs, _, 0 => some fs
  | fs, base, fuel + 1 =>
    if fs.isDir base then
      let ds := fs.childDirs base
      let first := if ds.contains ".git" then deleteGitDirE fs (base ++ [".git"]) else some fs
      first.bind (fun fs1 => ds.foldlM (fun acc n => walkDelE acc (base ++ [n]) fuel) fs1)
    else some fs

/-- Embedding of delete_git_folders(base_path). -/
def delete_git_folders (fs : FS) (base : Path) : FS :=
  walkDel fs base (fs.depth + 1)

/-- Except-style delete_git_folders: none when some deletion raises. -/
def delete_git_foldersE (fs : FS) (base : Path) : Option FS :=
  walkDelE fs base (fs.depth + 1)

/-! ### The manifest parse pipeline of main -/

/-- Embedding of Python str.replace for a non-empty pattern: scan left
to right, replacing each non-overlapping occurrence.  Each step consumes
at least one character, so fuel equal to the text length completes the
scan. -/
def replaceLoop (pat rep : List Char) : Nat → List Char → List Char
  | 0, s => s
  | _, [] => []
  | fuel + 1, c :: rest =>
    if pat.isPrefixOf (c :: rest) && !pat.isEmpty then
      rep ++ replaceLoop pat rep fuel ((c :: rest).drop pat.length)
    else c :: replaceLoop pat rep fuel rest

/-- Embedding of replace_version_placeholder: every occurrence of the
literal placeholder token is replaced by the version string. -/
def replace_version_placeholder (manifest_content version : String) : String :=
  String.mk (replaceLoop "VERSION_PLACEHOLDER".data version.data
    manifest_content.data.length manifest_content.data)

/-- A parsed XML element: tag, attributes, children. -/
inductive XmlNode where
  | node (tag : String) (attrs : List (String × String)) (children : List XmlNode)

/-- Tag of an element. -/
def XmlNode.tag : XmlNode → String
  | .node t _ _ => t

/-- Attribute list of an element. -/
def XmlNode.attrs : XmlNode → List (String × String)
  | .node _ a _ => a

/-- Children of an element. -/
def XmlNode.children : XmlNode → List XmlNode
  | .node _ _ c => c

/-- Embedding of Element.get(key). -/
def XmlNode.getAttr (n : XmlNode) (k : String) : Option String :=
  (n.attrs.find? (fun e => e.1 == k)).map (fun e => e.2)

/-- Embedding of root.find of the property path with name version: the
first direct child tagged property whose name attribute is version. -/
def findVersionProperty (root : XmlNode) : Option XmlNode :=
  root.children.find? (fun c => c.tag == "property" && c.getAttr "name" == some "version")

/-- Outcome of the parse pipeline of main up to the second structural
parse.  parseFailure and attrError are raised exceptions (the run
aborts); versionFalsy is the printed early return of main when the
version attribute is missing or empty; ran carries the tree that drives
remote and project processing together with the extracted version. -/
inductive MainResult where
  | parseFailure
  | attrError
  | versionFalsy
  | ran (tree2 : XmlNode) (version : String)

/-- Embedding of main from reading the manifest text to the second
ET.fromstring, parameterised by the XML parser (none embeds a raised
ParseError). -/
def mainPipeline (parse : String → Option XmlNode) (manifest_content : String) : MainResult :=
  match parse manifest_content with
  | none => .parseFailure
  | some root1 =>
    match findVersionProperty root1 with
    | none => .attrError
    | some node =>
      match node.getAttr "value" with
      | none => .versionFalsy
      | some v =>
        if v == "" then .versionFalsy
        else
          match parse (replace_version_placeholder manifest_content v) with
          | none => .parseFailure
          | some root2 => .ran root2 v

/-! ### The remote/project processing loop of main -/

/-- A manifest project as read off a project element. -/
structure Project where
  name : Option String
  remote : Option String
  path : Option Path
  revision : Option String
  sparse : List (Option String)
deriving DecidableEq

/-- What the clone loop of main does for one project. -/
inductive CloneAction where
  | skipped (name remote : Option String)
  | cloned (name : Option String) (url : String) (path : Option Path)
      (revision : Option String) (sparse : List (Option String))
deriving DecidableEq

/-- Embedding of remotes.get(remote_name) for the dict comprehension
over remote elements: a later remote element with the same name
overwrites an earlier one. -/
def dictGet (remotes : List (Option String × Option String)) (k : Option String) : Option (Option String) :=
  (remotes.reverse.find? (fun e => e.1 == k)).map (fun e => e.2)

/-- Embedding of one iteration of the clone loop of main: the project is
skipped when the remote lookup yields nothing falsy-true, that is when
the name is absent from the dict or maps to None or the empty string. -/
def cloneStep (remotes : List (Option String × Option String)) (pr : Project) : CloneAction :=
  match dictGet remotes pr.remote with
  | none => .skipped pr.name pr.remote
  | some none => .skipped pr.name pr.remote
  | some (some url) =>
    if url == "" then .skipped pr.name pr.remote
    else .cloned pr.name (url ++ "/" ++ pr.name.getD "None" ++ ".git") pr.path pr.revision pr.sparse

/-- Embedding of the clone loop of main over the project list. -/
def processProjects (remotes : List (Option String × Option String)) : List Project → List CloneAction
  | [] => []
  | pr :: ps => cloneStep remotes pr :: processProjects remotes ps

/-! ### move_files_to_sequences_and_merge -/

/-- Truthiness of the path attribute of a project element: an absent or
empty path is falsy. -/
def truthyPath : Option Path → Bool
  | none => false
  | some p => !p.isEmpty

/-- Embedding of the first loop of move_files_to_sequences_and_merge:
the sequences directory is the sibling named sequences of the path of
the first project carrying a truthy path attribute. -/
def seqPathOf (projects : List Project) : Option Path :=
  match projects.find? (fun pr => truthyPath pr.path) with
  | some pr =>
    match pr.path with
    | some p => some (p.dropLast ++ ["sequences"])
    | none => none
  | none => none

/-- Embedding of the recursive move loop of the non-configurations
branch: os.walk the project path, moving every file of each visited
directory into the sequences directory, then descend into the
subdirectories.  Fuel dominates the walk depth. -/
def moveWalk (seq : Path) : FS → Path → Nat → FS
  | fs, _, 0 => fs
  | fs, root, fuel + 1 =>
    if fs.isDir root then
      let fls := fs.childFiles root
      let ds := fs.childDirs root
      let fs1 := fls.foldl (fun acc n => acc.move (root ++ [n]) (seq ++ [n])) fs
      ds.foldl (fun acc n => moveWalk seq acc (root ++ [n]) fuel) fs1
    else fs

/-- Embedding of the per-project body of the second loop of
move_files_to_sequences_and_merge. -/
def processProject (seq : Path) (fs : FS) (pr : Project) : FS :=
  match pr.path with
  | none => fs
  | some p =>
    if p.isEmpty then fs
    else if !fs.existsPath p then fs
    else if pr.name == some "configurations" then
      ((fs.listdir p).foldl (fun acc n => acc.move (p ++ [n]) (seq.dropLast ++ [n])) fs).rmtree p
    else
      (moveWalk seq fs p (fs.depth + 1)).rmtree p

/-- Embedding of the final step of move_files_to_sequences_and_merge:
relocate sequence_config.json from the parent of the sequences directory
into the sequences directory when present. -/
def moveSequenceConfig (fs : FS) (seq : Path) : FS :=
  let cfg := seq.dropLast ++ ["sequence_config.json"]
  if fs.existsPath cfg then fs.move cfg (seq ++ ["sequence_config.json"]) else fs

/-- Embedding of move_files_to_sequences_and_merge over the project list
of the manifest root. -/
def move_files_to_sequences_and_merge (fs : FS) (projects : List Project) : FS :=
  match seqPathOf projects with
  | none => fs
  | some seq =>
    let fs1 := if fs.existsPath seq then fs else fs.mkdirs seq
    moveSequenceConfig (projects.foldl (fun acc pr => processProject seq acc pr) fs1) seq

/-! ### Concrete fixtures used by witnesses and counterexamples -/

/-- A workspace with a project at p whose sparse sub-path a/b holds one
file; the shape of the claim about sparse flattening. -/
def fsSparse : FS :=
  { files := [(["p", "a", "b", "f.txt"], "x", true)],
    dirs := [["p"], ["p", "a"], ["p", "a", "b"]] }

/-- A workspace whose project holds a .git directory containing a
read-only file. -/
def fsGit : FS :=
  { files := [(["w", "proj", ".git", "objects", "o1"], "blob", false),
              (["w", "proj", "src.txt"], "code", true)],
    dirs := [["w"], ["w", "proj"], ["w", "proj", ".git"], ["w", "proj", ".git", "objects"]] }

/-- A toy parser that records the text it was given inside the produced
tree, so the second-parse theorem is observable on it. -/
def parseEcho : String → Option XmlNode := fun s =>
  some (XmlNode.node "manifest" [("raw", s)]
    [XmlNode.node "property" [("name", "version"), ("value", "1.0")] []])

/-- A toy parser producing a manifest without the version property. -/
def parseNoVersion : String → Option XmlNode := fun _ =>
  some (XmlNode.node "manifest" [] [XmlNode.node "remote" [("name", "r")] []])

/-- Two projects sharing the file name f.txt at different depths, and a
workspace holding their files; the shape of the merge-collision claim. -/
def prOne : Project :=
  { name := some "proj1", remote := some "r", path := some ["w", "p1"],
    revision := some "main", sparse := [] }

/-- Second project of the merge-collision scenario. -/
def prTwo : Project :=
  { name := some "proj2", remote := some "r", path := some ["w", "p2"],
    revision := some "main", sparse := [] }

/-- A project referring to a remote name absent from the remote dict. -/
def prNoRemote : Project :=
  { name := some "proj2", remote := some "missing", path := some ["w", "p2"],
    revision := some "main", sparse := [] }

/-- Workspace of the merge-collision scenario. -/
def fsMerge : FS :=
  { files := [(["w", "p1", "sub", "f.txt"], "one", true),
              (["w", "p2", "f.txt"], "two", true)],
    dirs := [["w"], ["w", "p1"], ["w", "p1", "sub"], ["w", "p2"]] }

/-- A configurations project and a workspace holding x.json and y.json
below it. -/
def prConfigs : Project :=
  { name := some "configurations", remote := some "r", path := some ["w", "configurations"],
    revision := some "main", sparse := [] }

/-- Workspace of the configurations scenario. -/
def fsConfigs : FS :=
  { files := [(["w", "configurations", "x.json"], "X", true),
              (["w", "configurations", "y.json"], "Y", true)],
    dirs := [["w"], ["w", "configurations"]] }

/-- A workspace with sequence_config.json beside the sequences folder. -/
def fsSeqCfg : FS :=
  { files := [(["w", "sequence_config.json"], "cfg", true)],
    dirs := [["w"], ["w", "sequences"]] }

/-! ### Generic list helpers -/

/-- find? is unchanged by a filter that keeps every matching element. -/
theorem find?_filter_of_imp {α : Type} (l : List α) (p q : α → Bool)
    (h : ∀ a, q a = true → p a = true) : (l.filter p).find? q = l.find? q := by
  induction l with
  | nil => rfl
  | cons a l ih =>
    by_cases hp : p a = true
    · by_cases hq : q a = true <;> simp [List.filter_cons, hp, List.find?_cons, hq, ih]
    · have hq : q a = false := by
        cases hqa : q a with
        | false => rfl
        | true => exact absurd (h a hqa) hp
      simp [List.filter_cons, hp, List.find?_cons, hq, ih]

/-- find? is unchanged by a map that fixes the matching elements and
does not change whether an element matches. -/
theorem find?_map_congr {α : Type} (l : List α) (g : α → α) (q : α → Bool)
    (h1 : ∀ a, q (g a) = q a) (h2 : ∀ a, q a = true → g a = a) :
    (l.map g).find? q = l.find? q := by
  induction l with
  | nil => rfl
  | cons a l ih =>
    by_cases hq : q a = true
    · simp [List.find?_cons, h1, hq, h2 a hq]
    · have hq' : q a = false := by simpa using hq
      simp [List.find?_cons, h1, hq', ih]

/-- Bool isPrefixOf as a decide of the prefix relation. -/
theorem isPrefixOf_eq_decide (p q : Path) : p.isPrefixOf q = decide (p <+: q) := by
  by_cases h : p <+: q
  · simp [h, List.isPrefixOf_iff_prefix.mpr h]
  · simp only [h, decide_False]
    exact Bool.eq_false_iff.mpr (fun hc => h (List.isPrefixOf_iff_prefix.mp hc))

/-- A longer list is never a prefix of a shorter one. -/
theorem not_prefix_of_longer {l1 l2 : Path} (h : l2.length < l1.length) : ¬ l1 <+: l2 :=
  fun hc => absurd hc.length_le (Nat.not_le_of_lt h)

/-- An and inside any can be dropped when the second conjunct forces the
first. -/
theorem any_and_congr {α : Type} (l : List α) (p q : α → Bool)
    (h : ∀ a, q a = true → p a = true) : (l.any fun a => p a && q a) = l.any q := by
  induction l with
  | nil => rfl
  | cons a l ih =>
    cases hq : q a with
    | false => simp [List.any_cons, hq, ih]
    | true => simp [List.any_cons, hq, h a hq]

/-- Extending by distinct final components yields distinct paths. -/
theorem snoc_inj_iff {p : Path} {a b : String} : p ++ [a] = p ++ [b] ↔ a = b := by
  constructor
  · intro h
    have := List.append_cancel_left h
    simpa using this
  · intro h; rw [h]

/-- A snoc extension is a prefix of another iff the added components agree. -/
theorem snoc_prefix_snoc_iff {p : Path} {a b : String} : p ++ [a] <+: p ++ [b] ↔ a = b := by
  rw [List.prefix_append_right_inj]
  constructor
  · intro h
    rcases h with ⟨t, ht⟩
    cases t with
    | nil => simpa using ht
    | cons x xs => simp at ht
  · intro h; rw [h]

/-- Prefixes of a snoc extension: either a prefix of the base or the
whole extension. -/
theorem prefix_snoc_iff {p q : Path} {n : String} : p <+: q ++ [n] ↔ p <+: q ∨ p = q ++ [n] := by
  constructor
  · intro h
    rcases h with ⟨t, ht⟩
    cases t using List.reverseRecOn with
    | nil => right; simpa using ht
    | append_singleton t x =>
      left
      refine ⟨t, ?_⟩
      have := congrArg (fun l => List.dropLast l) ht
      simpa [List.dropLast_concat, List.append_assoc] using this
  · rintro (h | rfl)
    · exact h.trans (List.prefix_append q [n])
    · exact List.prefix_rfl

namespace FS

/-! ### Characterisation lemmas for the filesystem primitives -/

theorem fileEntry_setFile (fs : FS) (p q : Path) (e : String × Bool) :
    (fs.setFile p e).fileEntry q = if q = p then some e else fs.fileEntry q := by
  by_cases h : q = p
  · subst h; simp [fileEntry, setFile, List.find?_cons]
  · have hbe : (p == q) = false := by simpa [beq_iff_eq] using fun hc => h hc.symm
    simp only [fileEntry, setFile, List.find?_cons, hbe, if_neg h]
    rw [find?_filter_of_imp]
    intro a ha
    have : a.1 = q := by simpa [beq_iff_eq] using ha
    simp [this, beq_iff_eq]
    exact fun hc => h (hc ▸ rfl)

theorem fileEntry_removeFile (fs : FS) (p q : Path) :
    (fs.removeFile p).fileEntry q = if q = p then none else fs.fileEntry q := by
  by_cases h : q = p
  · subst h
    have hnone : (fs.files.filter (fun f => !(f.1 == q))).find? (fun e => e.1 == q) = none := by
      rw [List.find?_eq_none]
      intro a ha hq
      have hf := List.of_mem_filter ha
      rw [Bool.not_eq_eq_eq_not, Bool.not_true] at hf
      rw [hf] at hq
      exact Bool.false_ne_true hq
    simp [fileEntry, removeFile, hnone]
  · simp only [fileEntry, removeFile, if_neg h]
    rw [find?_filter_of_imp]
    intro a ha
    have ha1 : a.1 = q := by simpa [beq_iff_eq] using ha
    simp [ha1, beq_iff_eq]
    exact fun hc => h (hc ▸ rfl)

theorem fileEntry_rmtree (fs : FS) (p q : Path) :
    (fs.rmtree p).fileEntry q = if p <+: q then none else fs.fileEntry q := by
  by_cases h : p <+: q
  · have hnone : (fs.files.filter (fun f => !(List.isPrefixOf p f.1))).find?
        (fun e => e.1 == q) = none := by
      rw [List.find?_eq_none]
      intro a ha hq
      have hf := List.of_mem_filter ha
      have ha1 : a.1 = q := by simpa [beq_iff_eq] using hq
      rw [ha1, isPrefixOf_eq_decide] at hf
      simp [h] at hf
    simp [fileEntry, rmtree, hnone, h]
  · simp only [fileEntry, rmtree, if_neg h]
    rw [find?_filter_of_imp]
    intro a ha
    have ha1 : a.1 = q := by simpa [beq_iff_eq] using ha
    simp [ha1, isPrefixOf_eq_decide, h]

theorem isDir_setFile (fs : FS) (p q : Path) (e : String × Bool) :
    (fs.setFile p e).isDir q = fs.isDir q := rfl

theorem isDir_removeFile (fs : FS) (p q : Path) :
    (fs.removeFile p).isDir q = fs.isDir q := rfl

theorem isDir_chmodTree (fs : FS) (p q : Path) :
    (fs.chmodTree p).isDir q = fs.isDir q := rfl

theorem isDir_rmtree (fs : FS) (p q : Path) :
    (fs.rmtree p).isDir q = (!decide (p <+: q) && fs.isDir q) := by
  simp only [isDir, rmtree, List.contains_eq_any_beq, List.any_filter]
  by_cases h : p <+: q
  · simp only [h, decide_True, Bool.not_true, Bool.false_and]
    rw [List.any_eq_false]
    intro d _
    by_cases hd : q = d
    · subst hd; simp [isPrefixOf_eq_decide, h]
    · simp [beq_iff_eq, hd]
  · simp only [h, decide_False, Bool.not_false, Bool.true_and]
    apply any_and_congr
    intro d hd
    have : q = d := by simpa [beq_iff_eq] using hd
    subst this
    simp [isPrefixOf_eq_decide, h]

/-- find? over a map preserving keys. -/
theorem find?_key_map {β : Type} (l : List (Path × β)) (g : Path × β → Path × β)
    (hg : ∀ e, (g e).1 = e.1) (q : Path) :
    (l.map g).find? (fun e => e.1 == q) = (l.find? (fun e => e.1 == q)).map g := by
  induction l with
  | nil => rfl
  | cons a l ih =>
    by_cases h : (a.1 == q) = true
    · simp [List.find?_cons, hg, h]
    · have h' : (a.1 == q) = false := by simpa using h
      simp [List.find?_cons, hg, h', ih]

theorem fileEntry_chmodTree (fs : FS) (p q : Path) :
    (fs.chmodTree p).fileEntry q =
      (fs.fileEntry q).map (fun e => if p <+: q then (e.1, true) else e) := by
  unfold chmodTree fileEntry
  rw [find?_key_map]
  · cases hf : fs.files.find? (fun e => e.1 == q) with
    | none => simp
    | some a =>
      have ha1 : a.1 = q := by simpa [beq_iff_eq] using List.find?_some hf
      by_cases h : p <+: q <;> simp [ha1, isPrefixOf_eq_decide, h]
  · intro e
    by_cases h : List.isPrefixOf p e.1 = true <;> simp [h]

theorem isDir_iff_mem (fs : FS) (q : Path) : fs.isDir q = true ↔ q ∈ fs.dirs := by
  simp [isDir, List.contains_eq_any_beq, List.any_eq_true, beq_iff_eq, eq_comm]

theorem fileEntry_isSome_iff (fs : FS) (q : Path) :
    (fs.fileEntry q).isSome = true ↔ ∃ e ∈ fs.files, e.1 = q := by
  simp [fileEntry, List.find?_isSome, beq_iff_eq]

theorem existsPath_iff (fs : FS) (q : Path) :
    fs.existsPath q = true ↔ fs.isDir q = true ∨ (fs.fileEntry q).isSome = true := by
  simp [existsPath]

theorem fileEntry_renameTree_frame (fs : FS) (src dst q : Path)
    (hs : ¬ src <+: q) (hd : ¬ dst <+: q) :
    (fs.renameTree src dst).fileEntry q = fs.fileEntry q := by
  unfold renameTree fileEntry
  rw [find?_map_congr]
  · intro a
    by_cases h : List.isPrefixOf src a.1 = true
    · have hda : (dst ++ a.1.drop src.length) ≠ q := by
        intro hc
        exact hd (hc ▸ List.prefix_append dst (a.1.drop src.length))
      have hsa : a.1 ≠ q := by
        intro hc
        exact hs (hc ▸ List.isPrefixOf_iff_prefix.mp h)
      simp [h, beq_iff_eq, hda, hsa]
    · simp [h]
  · intro a ha
    have ha1 : a.1 = q := by simpa [beq_iff_eq] using ha
    have : List.isPrefixOf src a.1 = false := by
      rw [ha1, isPrefixOf_eq_decide]
      simpa using hs
    simp [this]

theorem isDir_renameTree_frame (fs : FS) (src dst q : Path)
    (hs : ¬ src <+: q) (hd : ¬ dst <+: q) :
    (fs.renameTree src dst).isDir q = fs.isDir q := by
  unfold renameTree isDir
  simp only [List.contains_eq_any_beq, List.any_map]
  congr 1
  funext d
  simp only [Function.comp]
  by_cases h : List.isPrefixOf src d = true
  · have hda : q ≠ dst ++ d.drop src.length := by
      intro hc
      exact hd (hc ▸ List.prefix_append dst (d.drop src.length))
    have hsa : q ≠ d := by
      intro hc
      exact hs (hc ▸ List.isPrefixOf_iff_prefix.mp h)
    simp [h, beq_iff_eq, hda, hsa]
  · simp [h]

theorem dirs_move_of_file (fs : FS) (src dst : Path) (hsrc : fs.isDir src = false) :
    (fs.move src dst).dirs = fs.dirs := by
  unfold move
  rw [hsrc]
  simp only [Bool.false_eq_true, if_false]
  cases fs.fileEntry src with
  | none => rfl
  | some e => by_cases h : fs.isDir dst = true <;> simp [h, setFile, removeFile]

theorem isDir_move_of_file (fs : FS) (src dst q : Path) (hsrc : fs.isDir src = false) :
    (fs.move src dst).isDir q = fs.isDir q := by
  unfold isDir
  rw [dirs_move_of_file fs src dst hsrc]

theorem fileEntry_move_frame (fs : FS) (src dst q : Path)
    (hs : ¬ src <+: q) (hd : ¬ dst <+: q) :
    (fs.move src dst).fileEntry q = fs.fileEntry q := by
  have hqs : q ≠ src := fun hc => hs (hc ▸ List.prefix_rfl)
  have hqd : q ≠ dst := fun hc => hd (hc ▸ List.prefix_rfl)
  unfold move
  by_cases h1 : fs.isDir src = true
  · rw [h1]
    simp only [if_true]
    by_cases h2 : fs.isDir dst = true
    · rw [h2]
      simp only [if_true]
      refine fileEntry_renameTree_frame fs src _ q hs (fun hc => hd ?_)
      exact (List.prefix_append dst [src.getLastD ""]).trans hc
    · rw [Bool.not_eq_true] at h2
      rw [h2]
      by_cases h3 : fs.existsPath dst = true
      · simp [h3]
      · rw [Bool.not_eq_true] at h3
        rw [h3]
        simpa using fileEntry_renameTree_frame fs src dst q hs hd
  · rw [Bool.not_eq_true] at h1
    rw [h1]
    simp only [Bool.false_eq_true, if_false]
    cases he : fs.fileEntry src with
    | none => rfl
    | some e =>
      by_cases h2 : fs.isDir dst = true
      · rw [h2]
        simp only [if_true]
        rw [fileEntry_setFile, fileEntry_removeFile]
        have : q ≠ dst ++ [src.getLastD ""] := by
          intro hc
          exact hd (hc ▸ List.prefix_append dst [src.getLastD ""])
        rw [if_neg this, if_neg hqs]
      · rw [Bool.not_eq_true] at h2
        rw [h2]
        simp only [Bool.false_eq_true, if_false]
        rw [fileEntry_setFile, fileEntry_removeFile, if_neg hqd, if_neg hqs]

theorem fileEntry_move_file_dst (fs : FS) (src dst : Path) (e : String × Bool)
    (hsrc : fs.isDir src = false) (he : fs.fileEntry src = some e)
    (hdst : fs.isDir dst = false) :
    (fs.move src dst).fileEntry dst = some e := by
  unfold move
  rw [hsrc, he, hdst]
  simp [fileEntry_setFile]

theorem fileEntry_move_file_src (fs : FS) (src dst : Path) (e : String × Bool)
    (hsrc : fs.isDir src = false) (he : fs.fileEntry src = some e)
    (hdst : fs.isDir dst = false) (hne : src ≠ dst) :
    (fs.move src dst).fileEntry src = none := by
  unfold move
  rw [hsrc, he, hdst]
  simp only [Bool.false_eq_true, if_false]
  rw [fileEntry_setFile, if_neg hne, fileEntry_removeFile, if_pos rfl]

/-- Frame lemma for one shutil.move step: a path q is untouched when it
is not under the source, not under the effective inside-a-directory
target, and either the destination is a directory (so nothing lands at
the destination path itself) or q is not under the destination. -/
theorem fileEntry_move_step_frame (fs : FS) (src dst q : Path)
    (hs : ¬ src <+: q) (hd2 : ¬ (dst ++ [src.getLastD ""]) <+: q)
    (hcase : fs.isDir dst = true ∨ ¬ dst <+: q) :
    (fs.move src dst).fileEntry q = fs.fileEntry q := by
  have hqs : q ≠ src := fun hc => hs (hc ▸ List.prefix_rfl)
  unfold move
  by_cases h1 : fs.isDir src = true
  · rw [h1]
    simp only [if_true]
    by_cases h2 : fs.isDir dst = true
    · rw [h2]
      simp only [if_true]
      exact fileEntry_renameTree_frame fs src _ q hs hd2
    · rw [Bool.not_eq_true] at h2
      rw [h2]
      have hd : ¬ dst <+: q := hcase.resolve_left (by simp [h2])
      by_cases h3 : fs.existsPath dst = true
      · simp [h3]
      · rw [Bool.not_eq_true] at h3
        rw [h3]
        simpa using fileEntry_renameTree_frame fs src dst q hs hd
  · rw [Bool.not_eq_true] at h1
    rw [h1]
    simp only [Bool.false_eq_true, if_false]
    cases he : fs.fileEntry src with
    | none => rfl
    | some e =>
      by_cases h2 : fs.isDir dst = true
      · rw [h2]
        simp only [if_true]
        rw [fileEntry_setFile, fileEntry_removeFile]
        have hq1 : q ≠ dst ++ [src.getLastD ""] := fun hc => hd2 (hc ▸ List.prefix_rfl)
        rw [if_neg hq1, if_neg hqs]
      · rw [Bool.not_eq_true] at h2
        rw [h2]
        have hd : ¬ dst <+: q := hcase.resolve_left (by simp [h2])
        have hqd : q ≠ dst := fun hc => hd (hc ▸ List.prefix_rfl)
        simp only [Bool.false_eq_true, if_false]
        rw [fileEntry_setFile, fileEntry_removeFile, if_neg hqd, if_neg hqs]

/-- Directory-status companion of fileEntry_move_step_frame. -/
theorem isDir_move_step_frame (fs : FS) (src dst q : Path)
    (hs : ¬ src <+: q) (hd2 : ¬ (dst ++ [src.getLastD ""]) <+: q)
    (hcase : fs.isDir dst = true ∨ ¬ dst <+: q) :
    (fs.move src dst).isDir q = fs.isDir q := by
  by_cases h1 : fs.isDir src = true
  · unfold move
    rw [h1]
    simp only [if_true]
    by_cases h2 : fs.isDir dst = true
    · rw [h2]
      simp only [if_true]
      exact isDir_renameTree_frame fs src _ q hs hd2
    · rw [Bool.not_eq_true] at h2
      rw [h2]
      have hd : ¬ dst <+: q := hcase.resolve_left (by simp [h2])
      by_cases h3 : fs.existsPath dst = true
      · simp [h3]
      · rw [Bool.not_eq_true] at h3
        rw [h3]
        simpa using isDir_renameTree_frame fs src dst q hs hd
  · rw [Bool.not_eq_true] at h1
    exact isDir_move_of_file fs src dst q h1

theorem childNameOf_eq_some {p q : Path} {n : String} :
    childNameOf p q = some n ↔ q = p ++ [n] := by
  constructor
  · intro h
    unfold childNameOf at h
    split at h
    · next hc =>
      have hc' : List.isPrefixOf p q = true ∧ (q.length == p.length + 1) = true := by
        simpa using hc
      obtain ⟨h1, h2⟩ := hc'
      obtain ⟨t, ht⟩ := List.isPrefixOf_iff_prefix.mp h1
      have hlen : q.length = p.length + 1 := by simpa [beq_iff_eq] using h2
      have htl : t.length = 1 := by
        have hq := congrArg List.length ht
        rw [List.length_append, hlen] at hq
        omega
      obtain ⟨x, hx⟩ := List.length_eq_one.mp htl
      subst hx
      rw [← ht] at h ⊢
      rw [List.getLast?_concat] at h
      cases h
      rfl
    · cases h
  · rintro rfl
    unfold childNameOf
    rw [if_pos, List.getLast?_concat]
    simp [List.isPrefixOf_iff_prefix.mpr (List.prefix_append p [n])]

theorem mem_listdir_iff (fs : FS) (p : Path) (n : String) :
    n ∈ fs.listdir p ↔ fs.isDir (p ++ [n]) = true ∨ (fs.fileEntry (p ++ [n])).isSome = true := by
  unfold listdir
  rw [List.mem_dedup, List.mem_append]
  constructor
  · rintro (h | h)
    · obtain ⟨d, hd, hdn⟩ := List.mem_filterMap.mp h
      left
      rw [isDir_iff_mem]
      exact (childNameOf_eq_some.mp hdn) ▸ hd
    · obtain ⟨e, he, hen⟩ := List.mem_filterMap.mp h
      right
      rw [fileEntry_isSome_iff]
      exact ⟨e, he, childNameOf_eq_some.mp hen⟩
  · rintro (h | h)
    · left
      rw [isDir_iff_mem] at h
      exact List.mem_filterMap.mpr ⟨p ++ [n], h, childNameOf_eq_some.mpr rfl⟩
    · right
      obtain ⟨e, he, he1⟩ := (fileEntry_isSome_iff fs (p ++ [n])).mp h
      exact List.mem_filterMap.mpr ⟨e, he, childNameOf_eq_some.mpr he1⟩

theorem nodup_listdir (fs : FS) (p : Path) : (fs.listdir p).Nodup :=
  List.nodup_dedup _

theorem fileEntry_mkdirs (fs : FS) (p q : Path) :
    (fs.mkdirs p).fileEntry q = fs.fileEntry q := rfl

theorem isDir_mkdirs_iff (fs : FS) (p q : Path) :
    (fs.mkdirs p).isDir q = true ↔ (∃ i < p.length, q = p.take (i + 1)) ∨ fs.isDir q = true := by
  rw [isDir_iff_mem, isDir_iff_mem]
  unfold mkdirs
  simp only [List.mem_append, List.mem_filter, List.mem_map, List.mem_range]
  constructor
  · rintro (⟨⟨i, hi, hq⟩, _⟩ | h)
    · exact Or.inl ⟨i, hi, hq.symm⟩
    · exact Or.inr h
  · rintro (⟨i, hi, hq⟩ | h)
    · by_cases hmem : q ∈ fs.dirs
      · exact Or.inr hmem
      · refine Or.inl ⟨⟨i, hi, hq.symm⟩, ?_⟩
        simp only [Bool.not_eq_true']
        exact Bool.eq_false_iff.mpr (fun hc => hmem ((isDir_iff_mem fs q).mp hc))
    · exact Or.inr h

end FS

/-! ### Claims -/

/-- C10: for every project path and sparse sub-path whose joined
directory does not exist on disk or is not a directory,
move_files_to_parent returns without raising and leaves the filesystem
state entirely unchanged. -/
theorem C10_missing_sparse_target_is_noop (fs : FS) (path sparse : Path)
    (h : fs.existsPath (path ++ sparse) = false ∨ fs.isDir (path ++ sparse) = false) :
    move_files_to_parent fs path sparse = fs := by
  unfold move_files_to_parent
  rcases h with h | h <;> simp [h]

/-- Witness for C10 at a concrete state: the sparse target p/c is absent
from fsSparse, and flattening it changes nothing. -/
theorem C10_missing_sparse_target_is_noop_witness :
    move_files_to_parent fsSparse ["p"] ["c"] = fsSparse :=
  C10_missing_sparse_target_is_noop fsSparse ["p"] ["c"] (Or.inl (by decide))

/-- C1: whenever main reaches remote/project processing, the tree
driving that processing was parsed from
replace_version_placeholder(manifest_content, version), the raw manifest
text with every placeholder occurrence replaced by the extracted
version. -/
theorem C1_second_parse_input_is_replaced_text (parse : String → Option XmlNode)
    (content : String) (root2 : XmlNode) (v : String)
    (h : mainPipeline parse content = MainResult.ran root2 v) :
    parse (replace_version_placeholder content v) = some root2 := by
  unfold mainPipeline at h
  cases h1 : parse content with
  | none => simp only [h1] at h; cases h
  | some root1 =>
    simp only [h1] at h
    cases h2 : findVersionProperty root1 with
    | none => simp only [h2] at h; cases h
    | some node =>
      simp only [h2] at h
      cases h3 : node.getAttr "value" with
      | none => simp only [h3] at h; cases h
      | some v0 =>
        simp only [h3] at h
        cases h4 : (v0 == "") with
        | true => simp only [h4, if_true] at h; cases h
        | false =>
          simp only [h4, Bool.false_eq_true, if_false] at h
          cases h5 : parse (replace_version_placeholder content v0) with
          | none => simp only [h5] at h; cases h
          | some r2 =>
            simp only [h5, MainResult.ran.injEq] at h
            obtain ⟨hr, hv⟩ := h
            rw [← hv, ← hr]
            exact h5

/-- Witness for C1: the echo parser run on a placeholder-bearing text
reaches processing, and the tree it processes is the parse of the
replaced text. -/
theorem C1_second_parse_input_is_replaced_text_witness :
    parseEcho (replace_version_placeholder "rev=VERSION_PLACEHOLDER" "1.0") =
      some (XmlNode.node "manifest" [("raw", "rev=1.0")]
        [XmlNode.node "property" [("name", "version"), ("value", "1.0")] []]) :=
  C1_second_parse_input_is_replaced_text parseEcho "rev=VERSION_PLACEHOLDER" _ "1.0" rfl

/-- C4: if the parsed manifest lacks the version property node, main
aborts with the raised attribute error (the ConfigError of the spec
taxonomy) rather than proceeding; and when the node is present, any run
that reaches processing uses exactly the version value extracted from
that node. -/
theorem C4_version_property_required (parse : String → Option XmlNode)
    (content : String) (root1 : XmlNode) (h : parse content = some root1) :
    (findVersionProperty root1 = none → mainPipeline parse content = MainResult.attrError) ∧
    (∀ node v root2 v2, findVersionProperty root1 = some node →
      node.getAttr "value" = some v →
      mainPipeline parse content = MainResult.ran root2 v2 → v2 = v) := by
  constructor
  · intro hnone
    unfold mainPipeline
    simp only [h, hnone]
  · intro node v root2 v2 hnode hval hrun
    unfold mainPipeline at hrun
    simp only [h, hnode, hval] at hrun
    cases h4 : (v == "") with
    | true => simp only [h4, if_true] at hrun; cases hrun
    | false =>
      simp only [h4, Bool.false_eq_true, if_false] at hrun
      cases h5 : parse (replace_version_placeholder content v) with
      | none => simp only [h5] at hrun; cases hrun
      | some r2 =>
        simp only [h5, MainResult.ran.injEq] at hrun
        exact hrun.2.symm

/-- Witness for C4 at a concrete manifest without the version property:
the run aborts with the attribute error. -/
theorem C4_version_property_required_witness :
    mainPipeline parseNoVersion "m" = MainResult.attrError :=
  (C4_version_property_required parseNoVersion "m"
    (XmlNode.node "manifest" [] [XmlNode.node "remote" [("name", "r")] []]) rfl).1 rfl

/-- C6: a project whose remote attribute resolves to nothing in the
parsed remote dict is skipped, and every other project of the manifest
is still processed exactly as it would be on its own: the action list
decomposes around the skipped project. -/
theorem C6_unknown_remote_skips_only_that_project
    (remotes : List (Option String × Option String)) (l1 l2 : List Project) (pr : Project)
    (h : dictGet remotes pr.remote = none) :
    processProjects remotes (l1 ++ pr :: l2) =
      processProjects remotes l1 ++
        CloneAction.skipped pr.name pr.remote :: processProjects remotes l2 := by
  induction l1 with
  | nil => simp [processProjects, cloneStep, h]
  | cons a l ih => simp [processProjects, ih]

/-- Witness for C6: a two-project manifest whose second project names an
absent remote; the action list splits as the first project processed on
its own followed by the skip. -/
theorem C6_unknown_remote_skips_only_that_project_witness :
    processProjects [(some "r", some "http://host")] ([prOne] ++ prNoRemote :: []) =
      processProjects [(some "r", some "http://host")] [prOne] ++
        CloneAction.skipped (some "proj2") (some "missing") ::
          processProjects [(some "r", some "http://host")] [] :=
  C6_unknown_remote_skips_only_that_project [(some "r", some "http://host")]
    [prOne] [] prNoRemote (by decide)

/-- C8: the reorganization step anchors the sequences output directory
as the sibling named sequences of the path of the first project in
manifest order that declares a truthy path, and when no project declares
a path it returns with the filesystem unchanged. -/
theorem C8_sequences_dir_anchor :
    (∀ (fs : FS) (ps : List Project), seqPathOf ps = none →
      move_files_to_sequences_and_merge fs ps = fs) ∧
    (∀ (l1 l2 : List Project) (pr : Project) (p : Path),
      (∀ q, q ∈ l1 → truthyPath q.path = false) → pr.path = some p → p ≠ [] →
      seqPathOf (l1 ++ pr :: l2) = some (p.dropLast ++ ["sequences"])) := by
  constructor
  . intro fs ps h
    unfold move_files_to_sequences_and_merge
    rw [h]
  . intro l1 l2 pr p hl hp hne
    induction l1 with
    | nil =>
      have ht : truthyPath pr.path = true := by
        rw [hp]
        simpa [truthyPath] using hne
      have hf : List.find? (fun pr => truthyPath pr.path) (pr :: l2) = some pr :=
        List.find?_cons_of_pos l2 ht
      simp [seqPathOf, hf, hp]
    | cons a l ih =>
      have ha : truthyPath a.path = false := hl a (List.mem_cons_self a l)
      have hstep : seqPathOf ((a :: l) ++ pr :: l2) = seqPathOf (l ++ pr :: l2) := by
        unfold seqPathOf
        rw [List.cons_append, List.find?_cons_of_neg]
        simp [ha]
      rw [hstep]
      exact ih (fun q hq => hl q (List.mem_cons_of_mem a hq))

/-- Witness for C8: on the two-project fixture the anchor is the sibling
sequences directory of the first project path, and a manifest of
path-less projects leaves a concrete state unchanged. -/
theorem C8_sequences_dir_anchor_witness :
    seqPathOf ([] ++ prOne :: [prTwo]) = some (List.dropLast ["w", "p1"] ++ ["sequences"]) ∧
    move_files_to_sequences_and_merge fsSeqCfg [] = fsSeqCfg :=
  ⟨ C8_sequences_dir_anchor.2 [] [prTwo] prOne ["w", "p1"] (by simp) rfl (by simp),
    C8_sequences_dir_anchor.1 fsSeqCfg [] rfl ⟩

/-- C9: when a file sequence_config.json stands in the parent of the
sequences directory as reorganization reaches its final step, the final
step moves it into the sequences directory and removes it from the
parent; when it is absent the final step changes nothing (and raises
nothing). -/
theorem C9_sequence_config_relocated (fs : FS) (seq : Path) (e : String × Bool)
    (hne : seq ≠ []) :
    (fs.fileEntry (seq.dropLast ++ ["sequence_config.json"]) = some e →
      fs.isDir (seq.dropLast ++ ["sequence_config.json"]) = false →
      fs.isDir (seq ++ ["sequence_config.json"]) = false →
      (moveSequenceConfig fs seq).fileEntry (seq ++ ["sequence_config.json"]) = some e ∧
      (moveSequenceConfig fs seq).fileEntry (seq.dropLast ++ ["sequence_config.json"]) = none) ∧
    (fs.existsPath (seq.dropLast ++ ["sequence_config.json"]) = false →
      moveSequenceConfig fs seq = fs) := by
  constructor
  . intro hfile hsdir hddir
    have hex : fs.existsPath (seq.dropLast ++ ["sequence_config.json"]) = true := by
      simp [FS.existsPath_iff, hfile]
    have hsd : seq.dropLast ++ ["sequence_config.json"] ≠ seq ++ ["sequence_config.json"] := by
      intro hc
      have hlen := congrArg List.length hc
      have hpos : 0 < seq.length := List.length_pos.mpr hne
      simp [List.length_dropLast] at hlen
      omega
    unfold moveSequenceConfig
    rw [if_pos hex]
    exact ⟨ FS.fileEntry_move_file_dst fs _ _ e hsdir hfile hddir,
      FS.fileEntry_move_file_src fs _ _ e hsdir hfile hddir hsd ⟩
  . intro habs
    unfold moveSequenceConfig
    rw [if_neg]
    simp [habs]

/-- Witness for C9 at the concrete state with sequence_config.json in
the parent of sequences: afterwards it is inside sequences and gone from
the parent. -/
theorem C9_sequence_config_relocated_witness :
    (moveSequenceConfig fsSeqCfg ["w", "sequences"]).fileEntry
        (["w", "sequences"] ++ ["sequence_config.json"]) = some ("cfg", true) ∧
    (moveSequenceConfig fsSeqCfg ["w", "sequences"]).fileEntry
        (List.dropLast ["w", "sequences"] ++ ["sequence_config.json"]) = none :=
  (C9_sequence_config_relocated fsSeqCfg ["w", "sequences"] ("cfg", true)
    (by decide)).1 (by decide) (by decide) (by decide)

/-- Frame of the child-move fold of move_files_to_parent for sparse
sub-path a/b: folding the moves of children other than n changes nothing
at the source a/b/n, at the destination slot n, or at the intermediate
directory a. -/
theorem flattenFold_frame (path : Path) (n : String) (ms : List String) (fs : FS)
    (hn : ¬ n ∈ ms) (ha : fs.isDir (path ++ ["a"]) = true) :
    (ms.foldl (fun acc m => acc.move (path ++ ["a", "b"] ++ [m]) (path ++ [m])) fs).fileEntry
        (path ++ ["a", "b"] ++ [n]) = fs.fileEntry (path ++ ["a", "b"] ++ [n]) ∧
    (ms.foldl (fun acc m => acc.move (path ++ ["a", "b"] ++ [m]) (path ++ [m])) fs).fileEntry
        (path ++ [n]) = fs.fileEntry (path ++ [n]) ∧
    (ms.foldl (fun acc m => acc.move (path ++ ["a", "b"] ++ [m]) (path ++ [m])) fs).isDir
        (path ++ ["a", "b"] ++ [n]) = fs.isDir (path ++ ["a", "b"] ++ [n]) ∧
    (ms.foldl (fun acc m => acc.move (path ++ ["a", "b"] ++ [m]) (path ++ [m])) fs).isDir
        (path ++ [n]) = fs.isDir (path ++ [n]) ∧
    (ms.foldl (fun acc m => acc.move (path ++ ["a", "b"] ++ [m]) (path ++ [m])) fs).isDir
        (path ++ ["a"]) = true := by
  induction ms generalizing fs with
  | nil => exact ⟨rfl, rfl, rfl, rfl, ha⟩
  | cons m ms ih =>
    have hmn : m ≠ n := by
      rintro rfl
      exact hn (List.mem_cons_self m ms)
    have hn' : ¬ n ∈ ms := fun h => hn (List.mem_cons_of_mem m h)
    have hlast : (path ++ ["a", "b"] ++ [m]).getLastD "" = m := List.getLastD_concat _ _ _
    have hlen3 : (path ++ ["a", "b"] ++ [m]).length = path.length + 3 := by
      simp only [List.length_append, List.length_cons, List.length_nil]
    have hs1 : ¬ (path ++ ["a", "b"] ++ [m]) <+: (path ++ ["a", "b"] ++ [n]) := by
      rw [snoc_prefix_snoc_iff]
      exact hmn
    have hs2 : ¬ (path ++ ["a", "b"] ++ [m]) <+: (path ++ [n]) := by
      refine not_prefix_of_longer ?_
      rw [hlen3]
      simp only [List.length_append, List.length_cons, List.length_nil]
      omega
    have hs3 : ¬ (path ++ ["a", "b"] ++ [m]) <+: (path ++ ["a"]) := by
      refine not_prefix_of_longer ?_
      rw [hlen3]
      simp only [List.length_append, List.length_cons, List.length_nil]
      omega
    have hd21 : ¬ (path ++ [m] ++ [(path ++ ["a", "b"] ++ [m]).getLastD ""]) <+:
        (path ++ ["a", "b"] ++ [n]) := by
      rw [hlast, List.append_assoc, List.append_assoc, List.prefix_append_right_inj]
      simp only [List.cons_append, List.nil_append]
      intro hc
      rw [List.cons_prefix_cons] at hc
      obtain ⟨hma, hc⟩ := hc
      rw [List.cons_prefix_cons] at hc
      obtain ⟨hmb, _⟩ := hc
      rw [hma] at hmb
      exact absurd hmb (by decide)
    have hd22 : ¬ (path ++ [m] ++ [(path ++ ["a", "b"] ++ [m]).getLastD ""]) <+: (path ++ [n]) := by
      refine not_prefix_of_longer ?_
      simp only [List.length_append, List.length_cons, List.length_nil]
      omega
    have hd23 : ¬ (path ++ [m] ++ [(path ++ ["a", "b"] ++ [m]).getLastD ""]) <+:
        (path ++ ["a"]) := by
      refine not_prefix_of_longer ?_
      simp only [List.length_append, List.length_cons, List.length_nil]
      omega
    have hcase1 : fs.isDir (path ++ [m]) = true ∨ ¬ (path ++ [m]) <+: (path ++ ["a", "b"] ++ [n]) := by
      by_cases hma : m = "a"
      · exact Or.inl (hma ▸ ha)
      · refine Or.inr ?_
        rw [List.append_assoc, List.prefix_append_right_inj]
        simp only [List.cons_append, List.nil_append]
        intro hc
        rw [List.cons_prefix_cons] at hc
        exact hma hc.1
    have hcase2 : fs.isDir (path ++ [m]) = true ∨ ¬ (path ++ [m]) <+: (path ++ [n]) := by
      by_cases hma : m = "a"
      · exact Or.inl (hma ▸ ha)
      · refine Or.inr ?_
        rw [List.prefix_append_right_inj]
        intro hc
        rw [List.cons_prefix_cons] at hc
        exact hmn hc.1
    have hcase3 : fs.isDir (path ++ [m]) = true ∨ ¬ (path ++ [m]) <+: (path ++ ["a"]) := by
      by_cases hma : m = "a"
      · exact Or.inl (hma ▸ ha)
      · refine Or.inr ?_
        rw [List.prefix_append_right_inj]
        intro hc
        rw [List.cons_prefix_cons] at hc
        exact hma hc.1
    have e1 := FS.fileEntry_move_step_frame fs (path ++ ["a", "b"] ++ [m]) (path ++ [m])
      (path ++ ["a", "b"] ++ [n]) hs1 hd21 hcase1
    have e2 := FS.fileEntry_move_step_frame fs (path ++ ["a", "b"] ++ [m]) (path ++ [m])
      (path ++ [n]) hs2 hd22 hcase2
    have d1 := FS.isDir_move_step_frame fs (path ++ ["a", "b"] ++ [m]) (path ++ [m])
      (path ++ ["a", "b"] ++ [n]) hs1 hd21 hcase1
    have d2 := FS.isDir_move_step_frame fs (path ++ ["a", "b"] ++ [m]) (path ++ [m])
      (path ++ [n]) hs2 hd22 hcase2
    have d3 := FS.isDir_move_step_frame fs (path ++ ["a", "b"] ++ [m]) (path ++ [m])
      (path ++ ["a"]) hs3 hd23 hcase3
    have ha' : (fs.move (path ++ ["a", "b"] ++ [m]) (path ++ [m])).isDir (path ++ ["a"]) = true := by
      rw [d3]
      exact ha
    obtain ⟨i1, i2, i3, i4, i5⟩ := ih (fs.move (path ++ ["a", "b"] ++ [m]) (path ++ [m])) hn' ha'
    refine ⟨?_, ?_, ?_, ?_, ?_⟩ <;> simp only [List.foldl_cons]
    · rw [i1, e1]
    · rw [i2, e2]
    · rw [i3, d1]
    · rw [i4, d2]
    · exact i5

/-- C2 counterexample: on the concrete sparse workspace, flattening with
sparse paths a/b moves the file p/a/b/f.txt up to p/f.txt as the claim
says, but the directory p/a still exists afterwards (it is left behind
empty), refuting the conjunct that path/a no longer exists. -/
theorem C2_intermediate_dir_remains_counterexample :
    (flattenSparse fsSparse ["p"] [["a", "b"]]).fileContent ["p", "f.txt"] = some "x" ∧
    (flattenSparse fsSparse ["p"] [["a", "b"]]).existsPath ["p", "a"] = true := by
  decide

/-- C2 amended: for a project with sparse paths a/b, every file directly
under path/a/b (whose name does not collide with a directory at the
destination) ends up directly under path, and the sparse sub-path
directory path/a/b itself no longer exists; the intermediate directory
path/a however is not removed and remains present. -/
theorem C2_sparse_flattening_amended (fs : FS) (path : Path) (n : String) (e : String × Bool)
    (htar : fs.isDir (path ++ ["a", "b"]) = true)
    (hadir : fs.isDir (path ++ ["a"]) = true)
    (hfile : fs.fileEntry (path ++ ["a", "b"] ++ [n]) = some e)
    (hfd : fs.isDir (path ++ ["a", "b"] ++ [n]) = false)
    (hdst : fs.isDir (path ++ [n]) = false) :
    (flattenSparse fs path [["a", "b"]]).fileEntry (path ++ [n]) = some e ∧
    (flattenSparse fs path [["a", "b"]]).existsPath (path ++ ["a", "b"]) = false ∧
    (flattenSparse fs path [["a", "b"]]).isDir (path ++ ["a"]) = true := by
  have hflat : flattenSparse fs path [["a", "b"]] = move_files_to_parent fs path ["a", "b"] := rfl
  rw [hflat]
  unfold move_files_to_parent
  have hguard : (fs.existsPath (path ++ ["a", "b"]) && fs.isDir (path ++ ["a", "b"])) = true := by
    simp [FS.existsPath, htar]
  simp only [hguard, if_true]
  have hmem : n ∈ fs.listdir (path ++ ["a", "b"]) := by
    rw [FS.mem_listdir_iff]
    right
    rw [hfile]
    rfl
  obtain ⟨l1, l2, hsplit⟩ := List.append_of_mem hmem
  have hnodup := FS.nodup_listdir fs (path ++ ["a", "b"])
  rw [hsplit] at hnodup
  obtain ⟨hnd1, hnd2, hdisj⟩ := List.nodup_append.mp hnodup
  have hn2 : ¬ n ∈ l2 := (List.nodup_cons.mp hnd2).1
  have hn1 : ¬ n ∈ l1 := fun h => hdisj h (List.mem_cons_self n l2)
  rw [hsplit, List.foldl_append, List.foldl_cons]
  obtain ⟨a1, a2, a3, a4, a5⟩ := flattenFold_frame path n l1 fs hn1 hadir
  set G := l1.foldl (fun acc m => acc.move (path ++ ["a", "b"] ++ [m]) (path ++ [m])) fs with hG
  have hGfile : G.fileEntry (path ++ ["a", "b"] ++ [n]) = some e := by rw [a1, hfile]
  have hGsd : G.isDir (path ++ ["a", "b"] ++ [n]) = false := by rw [a3, hfd]
  have hGdd : G.isDir (path ++ [n]) = false := by rw [a4, hdst]
  set G2 := G.move (path ++ ["a", "b"] ++ [n]) (path ++ [n]) with hG2
  have hG2file : G2.fileEntry (path ++ [n]) = some e :=
    FS.fileEntry_move_file_dst G _ _ e hGsd hGfile hGdd
  have hG2a : G2.isDir (path ++ ["a"]) = true := by
    rw [hG2, FS.isDir_move_of_file G _ _ _ hGsd]
    exact a5
  obtain ⟨b1, b2, b3, b4, b5⟩ := flattenFold_frame path n l2 G2 hn2 hG2a
  have hrm1 : ¬ (path ++ ["a", "b"]) <+: (path ++ [n]) := by
    refine not_prefix_of_longer ?_
    simp only [List.length_append, List.length_cons, List.length_nil]
    omega
  have hrm3 : ¬ (path ++ ["a", "b"]) <+: (path ++ ["a"]) := by
    refine not_prefix_of_longer ?_
    simp only [List.length_append, List.length_cons, List.length_nil]
    omega
  refine ⟨?_, ?_, ?_⟩
  · rw [FS.fileEntry_rmtree, if_neg hrm1, b2, hG2file]
  · simp [FS.existsPath, FS.isDir_rmtree, FS.fileEntry_rmtree, List.prefix_rfl]
  · rw [FS.isDir_rmtree]
    simp only [hrm3, decide_False, Bool.not_false, Bool.true_and]
    exact b5

/-- Witness for C2 amended on the concrete sparse workspace. -/
theorem C2_sparse_flattening_amended_witness :
    (flattenSparse fsSparse ["p"] [["a", "b"]]).fileEntry (["p"] ++ ["f.txt"]) =
        some ("x", true) ∧
    (flattenSparse fsSparse ["p"] [["a", "b"]]).existsPath (["p"] ++ ["a", "b"]) = false ∧
    (flattenSparse fsSparse ["p"] [["a", "b"]]).isDir (["p"] ++ ["a"]) = true :=
  C2_sparse_flattening_amended fsSparse ["p"] "f.txt" ("x", true) (by decide) (by decide)
    (by decide) (by decide) (by decide)

/-! ### Lemmas for the metadata cleanup -/

/-- Folding steps that each preserve an observable preserve it. -/
theorem foldl_pres {α β : Type} (obs : FS → β) (f : FS → α → FS)
    (hf : ∀ acc a, obs (f acc a) = obs acc) :
    ∀ (l : List α) (fs : FS), obs (l.foldl f fs) = obs fs := by
  intro l
  induction l with
  | nil => intro fs; rfl
  | cons a l ih =>
    intro fs
    rw [List.foldl_cons, ih (f fs a), hf fs a]

/-- Folding steps that never create a path can never create a path. -/
theorem existsPath_foldl_mono {α : Type} (f : FS → α → FS) (q : Path)
    (hf : ∀ acc a, (f acc a).existsPath q = true → acc.existsPath q = true) :
    ∀ (l : List α) (fs : FS), (l.foldl f fs).existsPath q = true → fs.existsPath q = true := by
  intro l
  induction l with
  | nil => exact fun fs h => h
  | cons a l ih => exact fun fs h => hf fs a (ih (f fs a) h)

theorem existsPath_chmodTree (fs : FS) (p q : Path) :
    (fs.chmodTree p).existsPath q = fs.existsPath q := by
  unfold FS.existsPath
  rw [FS.isDir_chmodTree, FS.fileEntry_chmodTree]
  cases fs.fileEntry q <;> simp

theorem existsPath_rmtree_under (fs : FS) (p q : Path) (h : p <+: q) :
    (fs.rmtree p).existsPath q = false := by
  unfold FS.existsPath
  rw [FS.isDir_rmtree, FS.fileEntry_rmtree, if_pos h]
  simp [h]

theorem existsPath_rmtree_mono (fs : FS) (p q : Path)
    (h : (fs.rmtree p).existsPath q = true) : fs.existsPath q = true := by
  unfold FS.existsPath at h ⊢
  rw [FS.isDir_rmtree, FS.fileEntry_rmtree] at h
  by_cases hp : p <+: q
  · rw [if_pos hp] at h
    simp [hp] at h
  · rw [if_neg hp] at h
    simpa [hp] using h

theorem existsPath_removeFilesUnder_mono (fs : FS) (p q : Path)
    (h : (removeFilesUnder fs p).existsPath q = true) : fs.existsPath q = true := by
  rw [FS.existsPath_iff] at h ⊢
  rcases h with h | h
  · exact Or.inl h
  · rw [FS.fileEntry_isSome_iff] at h ⊢
    obtain ⟨e, he, h1⟩ := h
    exact Or.inr ⟨e, List.mem_of_mem_filter he, h1⟩

/-- After the chmod pass every file below p is writable, so the rmtree
attempt of delete_git_folders never raises. -/
theorem rmtreeBlocked_chmodTree (fs : FS) (p : Path) :
    rmtreeBlocked (fs.chmodTree p) p = false := by
  unfold rmtreeBlocked FS.chmodTree
  rw [List.any_map, List.any_eq_false]
  intro e _
  simp only [Function.comp]
  by_cases h : List.isPrefixOf p e.1 = true <;> simp [h]

/-- The fallible .git deletion always succeeds and agrees with the total
embedding. -/
theorem deleteGitDirE_eq (fs : FS) (p : Path) :
    deleteGitDirE fs p = some (deleteGitDir fs p) := by
  unfold deleteGitDir deleteGitDirE
  simp [rmtreeBlocked_chmodTree]

theorem existsPath_deleteGitDir_under (fs : FS) (p q : Path) (h : p <+: q) :
    (deleteGitDir fs p).existsPath q = false := by
  unfold deleteGitDir
  simp only [rmtreeBlocked_chmodTree, Bool.false_eq_true, if_false]
  exact existsPath_rmtree_under _ p q h

theorem isDir_deleteGitDir_frame (fs : FS) (p q : Path) (h : ¬ p <+: q) :
    (deleteGitDir fs p).isDir q = fs.isDir q := by
  unfold deleteGitDir
  simp only [rmtreeBlocked_chmodTree, Bool.false_eq_true, if_false]
  rw [FS.isDir_rmtree]
  simp [h, FS.isDir_chmodTree]

theorem existsPath_deleteGitDir_mono (fs : FS) (p q : Path)
    (h : (deleteGitDir fs p).existsPath q = true) : fs.existsPath q = true := by
  unfold deleteGitDir at h
  simp only [rmtreeBlocked_chmodTree, Bool.false_eq_true, if_false] at h
  have h2 := existsPath_rmtree_mono (fs.chmodTree p) p q h
  rwa [existsPath_chmodTree] at h2

/-- An Option fold whose steps always succeed equals the total fold. -/
theorem foldlM_option_eq {α β : Type} (f : β → α → Option β) (g : β → α → β)
    (h : ∀ b a, f b a = some (g b a)) :
    ∀ (l : List α) (b : β), List.foldlM f b l = some (List.foldl g b l) := by
  intro l
  induction l with
  | nil => intro b; rfl
  | cons a l ih =>
    intro b
    simp [List.foldlM_cons, h b a, ih]

/-- The fallible cleanup walk always succeeds and agrees with the total
embedding: delete_git_folders never raises. -/
theorem walkDelE_eq : ∀ (fuel : Nat) (fs : FS) (base : Path),
    walkDelE fs base fuel = some (walkDel fs base fuel) := by
  intro fuel
  induction fuel with
  | zero => intro fs base; rfl
  | succ fuel ih =>
    intro fs base
    unfold walkDel walkDelE
    by_cases hd : fs.isDir base = true
    · simp only [hd, if_true]
      cases hg : (fs.childDirs base).contains ".git" with
      | true =>
        simp only [hg, if_true, deleteGitDirE_eq, Option.some_bind]
        exact foldlM_option_eq _ _ (fun b a => ih b (base ++ [a])) _ _
      | false =>
        simp only [hg, Bool.false_eq_true, if_false, Option.some_bind]
        exact foldlM_option_eq _ _ (fun b a => ih b (base ++ [a])) _ _
    · rw [Bool.not_eq_true] at hd
      simp [hd]

/-- The cleanup walk only removes paths. -/
theorem existsPath_walkDel_mono : ∀ (fuel : Nat) (fs : FS) (base q : Path),
    (walkDel fs base fuel).existsPath q = true → fs.existsPath q = true := by
  intro fuel
  induction fuel with
  | zero => exact fun fs base q h => h
  | succ fuel ih =>
    intro fs base q h
    unfold walkDel at h
    by_cases hd : fs.isDir base = true
    · simp only [hd, if_true] at h
      have h1 := existsPath_foldl_mono (fun acc n => walkDel acc (base ++ [n]) fuel) q
        (fun acc a => ih acc (base ++ [a]) q) _ _ h
      by_cases hg : (fs.childDirs base).contains ".git" = true
      · simp only [hg, if_true] at h1
        exact existsPath_deleteGitDir_mono fs _ q h1
      · simp only [hg, Bool.false_eq_true, if_false] at h1
        exact h1
    · rw [Bool.not_eq_true] at hd
      rw [hd] at h
      simpa using h

/-- The cleanup walk of a root changes no directory outside the root. -/
theorem isDir_walkDel_frame : ∀ (fuel : Nat) (fs : FS) (base q : Path), ¬ base <+: q →
    (walkDel fs base fuel).isDir q = fs.isDir q := by
  intro fuel
  induction fuel with
  | zero => intro fs base q _; rfl
  | succ fuel ih =>
    intro fs base q hq
    unfold walkDel
    by_cases hd : fs.isDir base = true
    · simp only [hd, if_true]
      have hfold : ∀ (l : List String) (acc : FS),
          (l.foldl (fun a n => walkDel a (base ++ [n]) fuel) acc).isDir q = acc.isDir q := by
        intro l
        induction l with
        | nil => intro acc; rfl
        | cons x xs ihl =>
          intro acc
          rw [List.foldl_cons, ihl, ih acc (base ++ [x]) q
            (fun hc => hq ((List.prefix_append base [x]).trans hc))]
      rw [hfold]
      by_cases hg : (fs.childDirs base).contains ".git" = true
      · simp only [hg, if_true]
        exact isDir_deleteGitDir_frame fs _ q
          (fun hc => hq ((List.prefix_append base [".git"]).trans hc))
      · simp only [hg, Bool.false_eq_true, if_false]
    · rw [Bool.not_eq_true] at hd
      simp [hd]

/-- Every directory of the state is no longer than the depth bound. -/
theorem length_le_depth (fs : FS) (d : Path) (h : d ∈ fs.dirs) : d.length ≤ fs.depth := by
  unfold FS.depth
  have hgen : ∀ (l : List Path), d ∈ l →
      d.length ≤ l.foldr (fun d m => max d.length m) 0 := by
    intro l
    induction l with
    | nil => intro h2; cases h2
    | cons a l ihl =>
      intro h2
      rw [List.foldr_cons]
      rcases List.mem_cons.mp h2 with rfl | h3
      · exact Nat.le_max_left _ _
      · exact Nat.le_trans (ihl h3) (Nat.le_max_right _ _)
  exact hgen fs.dirs h

/-- The cleanup walk removes the whole subtree of a .git directory
reachable from the base through a chain of directories none of which is
itself named .git, given fuel above the chain length. -/
theorem walkDel_removes_git : ∀ (rest : Path) (base : Path) (fs : FS) (fuel : Nat),
    (∀ i, i ≤ rest.length → fs.isDir (base ++ rest.take i) = true) →
    fs.isDir (base ++ rest ++ [".git"]) = true →
    (∀ c ∈ rest, c ≠ ".git") →
    rest.length < fuel →
    ∀ q, (base ++ rest ++ [".git"]) <+: q → (walkDel fs base fuel).existsPath q = false := by
  intro rest
  induction rest with
  | nil =>
    intro base fs fuel hchain hgit hng hfuel q hq
    obtain ⟨f, rfl⟩ : ∃ f, fuel = f + 1 := ⟨fuel - 1, by omega⟩
    have hbase : fs.isDir base = true := by simpa using hchain 0 (by omega)
    simp only [List.append_nil] at hgit hq
    unfold walkDel
    simp only [hbase, if_true]
    have hgmem : ".git" ∈ fs.childDirs base := by
      unfold FS.childDirs
      rw [List.mem_filter]
      refine ⟨?_, hgit⟩
      rw [FS.mem_listdir_iff]
      exact Or.inl hgit
    have hgcon : (fs.childDirs base).contains ".git" = true := by
      rw [List.contains_eq_any_beq, List.any_eq_true]
      exact ⟨".git", hgmem, by simp⟩
    simp only [hgcon, if_true]
    apply Bool.eq_false_iff.mpr
    intro htrue
    have h1 := existsPath_foldl_mono (fun acc n => walkDel acc (base ++ [n]) f) q
      (fun acc a => existsPath_walkDel_mono f acc (base ++ [a]) q) _ _ htrue
    rw [existsPath_deleteGitDir_under fs _ q hq] at h1
    exact Bool.noConfusion h1
  | cons c rest ih =>
    intro base fs fuel hchain hgit hng hfuel q hq
    obtain ⟨f, rfl⟩ : ∃ f, fuel = f + 1 := ⟨fuel - 1, by omega⟩
    have hbase : fs.isDir base = true := by simpa using hchain 0 (by omega)
    have hc_ne : c ≠ ".git" := hng c (List.mem_cons_self c rest)
    have hng' : ∀ x ∈ rest, x ≠ ".git" := fun x hx => hng x (List.mem_cons_of_mem c hx)
    have hcdir : fs.isDir (base ++ [c]) = true := by
      have h1 := hchain 1 (by simp)
      simpa using h1
    have hacons : base ++ (c :: rest) = (base ++ [c]) ++ rest := by
      rw [List.append_assoc]
      rfl
    have hnotc : ∀ (X : Path), ¬ (base ++ [".git"]) <+: ((base ++ [c]) ++ X) := by
      intro X hc2
      rw [List.append_assoc, List.prefix_append_right_inj] at hc2
      simp only [List.singleton_append] at hc2
      rw [List.cons_prefix_cons] at hc2
      exact hc_ne (hc2.1.symm)
    have hchainA : ∀ i, i ≤ rest.length → fs.isDir ((base ++ [c]) ++ rest.take i) = true := by
      intro i hi
      have h1 := hchain (i + 1) (by simpa using Nat.succ_le_succ hi)
      rw [List.take_succ_cons] at h1
      rw [List.append_assoc]
      simpa using h1
    have hgitA : fs.isDir ((base ++ [c]) ++ rest ++ [".git"]) = true := by
      rw [← hacons]
      exact hgit
    have hqA : ((base ++ [c]) ++ rest ++ [".git"]) <+: q := by
      rw [← hacons]
      exact hq
    unfold walkDel
    simp only [hbase, if_true]
    have hmain : ∀ (fs1 : FS),
        (∀ i, i ≤ rest.length → fs1.isDir ((base ++ [c]) ++ rest.take i) = true) →
        fs1.isDir ((base ++ [c]) ++ rest ++ [".git"]) = true →
        ((fs.childDirs base).foldl (fun a n => walkDel a (base ++ [n]) f) fs1).existsPath q
          = false := by
      intro fs1 hchain1 hgit1
      have hcmem : c ∈ fs.childDirs base := by
        unfold FS.childDirs
        rw [List.mem_filter]
        refine ⟨?_, hcdir⟩
        rw [FS.mem_listdir_iff]
        exact Or.inl hcdir
      obtain ⟨u1, u2, hsp⟩ := List.append_of_mem hcmem
      have hnodup : (fs.childDirs base).Nodup := (FS.nodup_listdir fs base).filter _
      rw [hsp] at hnodup
      obtain ⟨hnd1, hnd2, hdisj⟩ := List.nodup_append.mp hnodup
      have hcu2 : ¬ c ∈ u2 := (List.nodup_cons.mp hnd2).1
      have hcu1 : ¬ c ∈ u1 := fun h => hdisj h (List.mem_cons_self c u2)
      rw [hsp, List.foldl_append, List.foldl_cons]
      have hphase1 : ∀ (l : List String), (∀ d ∈ l, d ≠ c) → ∀ (acc : FS),
          (∀ i, i ≤ rest.length → acc.isDir ((base ++ [c]) ++ rest.take i) = true) →
          acc.isDir ((base ++ [c]) ++ rest ++ [".git"]) = true →
          (∀ i, i ≤ rest.length →
            (l.foldl (fun a n => walkDel a (base ++ [n]) f) acc).isDir
              ((base ++ [c]) ++ rest.take i) = true) ∧
          (l.foldl (fun a n => walkDel a (base ++ [n]) f) acc).isDir
            ((base ++ [c]) ++ rest ++ [".git"]) = true := by
        intro l
        induction l with
        | nil => exact fun _ acc h1 h2 => ⟨h1, h2⟩
        | cons d l ihl =>
          intro hdl acc h1 h2
          have hdc : d ≠ c := hdl d (List.mem_cons_self d l)
          have hfr : ∀ (X : Path), ¬ (base ++ [d]) <+: ((base ++ [c]) ++ X) := by
            intro X hc2
            rw [List.append_assoc, List.prefix_append_right_inj] at hc2
            simp only [List.singleton_append] at hc2
            rw [List.cons_prefix_cons] at hc2
            exact hdc hc2.1
          simp only [List.foldl_cons]
          refine ihl (fun x hx => hdl x (List.mem_cons_of_mem d hx)) _ ?_ ?_
          · intro i hi
            rw [isDir_walkDel_frame f acc (base ++ [d]) _ (hfr _)]
            exact h1 i hi
          · rw [List.append_assoc (base ++ [c]) rest [".git"],
              isDir_walkDel_frame f acc (base ++ [d]) _ (hfr (rest ++ [".git"])),
              ← List.append_assoc]
            exact h2
      obtain ⟨hchainB, hgitB⟩ := hphase1 u1 (fun d hd => by
          rintro rfl
          exact hcu1 hd) fs1 hchain1 hgit1
      have hstepc : (walkDel (u1.foldl (fun a n => walkDel a (base ++ [n]) f) fs1)
          (base ++ [c]) f).existsPath q = false :=
        ih (base ++ [c]) _ f hchainB hgitB hng'
          (by simp only [List.length_cons] at hfuel; omega) q hqA
      apply Bool.eq_false_iff.mpr
      intro htrue
      have h1 := existsPath_foldl_mono (fun acc n => walkDel acc (base ++ [n]) f) q
        (fun acc a => existsPath_walkDel_mono f acc (base ++ [a]) q) _ _ htrue
      rw [hstepc] at h1
      exact Bool.noConfusion h1
    by_cases hg : (fs.childDirs base).contains ".git" = true
    · simp only [hg, if_true]
      refine hmain _ ?_ ?_
      · intro i hi
        rw [isDir_deleteGitDir_frame fs _ _ (hnotc _)]
        exact hchainA i hi
      · rw [List.append_assoc (base ++ [c]) rest [".git"],
          isDir_deleteGitDir_frame fs _ _ (hnotc _), ← List.append_assoc]
        exact hgitA
    · simp only [hg, Bool.false_eq_true, if_false]
      exact hmain fs hchainA hgitA

/-- C3: on every state whose metadata (.git) directory sits below the
project path behind a chain of directories (none itself named .git),
delete_git_folders removes the entire .git subtree and does not raise,
regardless of the writable flag of any file: the statement carries no
hypothesis about permissions, so it covers in particular states holding
read-only files inside the metadata directory. -/
theorem C3_cleanup_removes_git_without_raising (fs : FS) (base rest : Path)
    (hchain : ∀ i, i ≤ rest.length → fs.isDir (base ++ rest.take i) = true)
    (hgit : fs.isDir (base ++ rest ++ [".git"]) = true)
    (hng : ∀ c ∈ rest, c ≠ ".git") :
    delete_git_foldersE fs base = some (delete_git_folders fs base) ∧
    ∀ q, (base ++ rest ++ [".git"]) <+: q →
      (delete_git_folders fs base).existsPath q = false := by
  have hfuel : rest.length < fs.depth + 1 := by
    have hmem : (base ++ rest ++ [".git"]) ∈ fs.dirs := (FS.isDir_iff_mem fs _).mp hgit
    have hlen := length_le_depth fs _ hmem
    simp only [List.length_append, List.length_cons, List.length_nil] at hlen
    omega
  exact ⟨walkDelE_eq _ fs base,
    fun q hq => walkDel_removes_git rest base fs _ hchain hgit hng hfuel q hq⟩

/-- Witness for C3 on the concrete workspace whose .git directory holds
a read-only file: the cleanup succeeds and the .git directory is gone. -/
theorem C3_cleanup_removes_git_without_raising_witness :
    delete_git_foldersE fsGit ["w", "proj"] = some (delete_git_folders fsGit ["w", "proj"]) ∧
    (delete_git_folders fsGit ["w", "proj"]).existsPath
      (["w", "proj"] ++ [] ++ [".git"]) = false := by
  have h := C3_cleanup_removes_git_without_raising fsGit ["w", "proj"] []
    (by
      intro i hi
      have hz : i = 0 := by simpa using hi
      subst hz
      decide)
    (by decide)
    (by intro c hc; cases hc)
  exact ⟨h.1, h.2 _ List.prefix_rfl⟩

/-! ### Lemmas for the reorganization step -/

/-- foldl_pres with membership available to the step hypothesis. -/
theorem foldl_pres_mem {α β : Type} (obs : FS → β) (f : FS → α → FS) :
    ∀ (l : List α), (∀ acc a, a ∈ l → obs (f acc a) = obs acc) →
    ∀ fs, obs (l.foldl f fs) = obs fs := by
  intro l
  induction l with
  | nil => intro _ fs; rfl
  | cons a l ih =>
    intro hf fs
    rw [List.foldl_cons, ih (fun acc b hb => hf acc b (List.mem_cons_of_mem a hb)),
      hf fs a (List.mem_cons_self a l)]

/-- A present entry after a fold of steps that never create entries at q
was present before. -/
theorem fileEntry_foldl_mono {α : Type} (f : FS → α → FS) (q : Path)
    (hf : ∀ acc a (e : String × Bool), (f acc a).fileEntry q = some e →
      acc.fileEntry q = some e) :
    ∀ (l : List α) (fs : FS) (e : String × Bool),
      (l.foldl f fs).fileEntry q = some e → fs.fileEntry q = some e := by
  intro l
  induction l with
  | nil => exact fun fs e h => h
  | cons a l ih => exact fun fs e h => hf fs a e (ih (f fs a) e h)

namespace FS

/-- Renaming a subtree empties every path below the old root, provided q
is not below the new root. -/
theorem fileEntry_renameTree_src_none (fs : FS) (src dst q : Path)
    (hs : src <+: q) (hd : ¬ dst <+: q) :
    (fs.renameTree src dst).fileEntry q = none := by
  unfold renameTree fileEntry
  have hnone : ((fs.files.map (fun f =>
      if src.isPrefixOf f.1 then (dst ++ f.1.drop src.length, f.2) else f)).find?
      (fun e => e.1 == q)) = none := by
    rw [List.find?_eq_none]
    intro x hx hq
    obtain ⟨a, _, rfl⟩ := List.mem_map.mp hx
    by_cases hsa : List.isPrefixOf src a.1 = true
    · simp only [hsa, if_true] at hq
      have hda : dst ++ a.1.drop src.length = q := by simpa [beq_iff_eq] using hq
      exact hd (hda ▸ List.prefix_append dst (a.1.drop src.length))
    · simp only [hsa, Bool.false_eq_true, if_false] at hq
      have ha1 : a.1 = q := by simpa [beq_iff_eq] using hq
      rw [isPrefixOf_eq_decide, ha1] at hsa
      simp [hs] at hsa
  rw [hnone]
  rfl

/-- Outside the destination subtree, a rename preserves or removes an
entry but never creates or changes one. -/
theorem fileEntry_renameTree_outside (fs : FS) (src dst q : Path) (hd : ¬ dst <+: q)
    (e : String × Bool) (h : (fs.renameTree src dst).fileEntry q = some e) :
    fs.fileEntry q = some e := by
  by_cases hs : src <+: q
  · rw [fileEntry_renameTree_src_none fs src dst q hs hd] at h
    cases h
  · rwa [fileEntry_renameTree_frame fs src dst q hs hd] at h

/-- Outside the destination subtree, a rename creates no directory. -/
theorem isDir_renameTree_outside (fs : FS) (src dst q : Path) (hd : ¬ dst <+: q)
    (h : (fs.renameTree src dst).isDir q = true) : fs.isDir q = true := by
  rw [isDir_iff_mem] at h ⊢
  unfold renameTree at h
  obtain ⟨d, hdm, hde⟩ := List.mem_map.mp h
  by_cases hsd : List.isPrefixOf src d = true
  · rw [if_pos hsd] at hde
    exact absurd (hde ▸ List.prefix_append dst (d.drop src.length)) hd
  · rw [if_neg hsd] at hde
    exact hde ▸ hdm

/-- Outside the destination subtree, a move preserves or removes an
entry but never creates or changes one. -/
theorem fileEntry_move_some_outside (fs : FS) (src dst q : Path) (hd : ¬ dst <+: q)
    (e : String × Bool) (h : (fs.move src dst).fileEntry q = some e) :
    fs.fileEntry q = some e := by
  have hdd : ¬ (dst ++ [src.getLastD ""]) <+: q :=
    fun hc => hd ((List.prefix_append dst [src.getLastD ""]).trans hc)
  have hqd : q ≠ dst := fun hc => hd (hc ▸ List.prefix_rfl)
  have hqdd : q ≠ dst ++ [src.getLastD ""] := fun hc => hdd (hc ▸ List.prefix_rfl)
  unfold move at h
  by_cases h1 : fs.isDir src = true
  · rw [h1] at h
    simp only [if_true] at h
    by_cases h2 : fs.isDir dst = true
    · rw [h2] at h
      simp only [if_true] at h
      exact fileEntry_renameTree_outside fs src _ q hdd e h
    · rw [Bool.not_eq_true] at h2
      rw [h2] at h
      simp only [Bool.false_eq_true, if_false] at h
      by_cases h3 : fs.existsPath dst = true
      · rw [h3] at h
        simpa using h
      · rw [Bool.not_eq_true] at h3
        rw [h3] at h
        simp only [Bool.false_eq_true, if_false] at h
        exact fileEntry_renameTree_outside fs src dst q hd e h
  · rw [Bool.not_eq_true] at h1
    rw [h1] at h
    simp only [Bool.false_eq_true, if_false] at h
    cases he : fs.fileEntry src with
    | none => rw [he] at h; exact h
    | some e0 =>
      rw [he] at h
      by_cases h2 : fs.isDir dst = true
      · rw [h2] at h
        simp only [if_true] at h
        rw [fileEntry_setFile, if_neg hqdd, fileEntry_removeFile] at h
        by_cases hqs : q = src
        · rw [if_pos hqs] at h; cases h
        · rwa [if_neg hqs] at h
      · rw [Bool.not_eq_true] at h2
        rw [h2] at h
        simp only [Bool.false_eq_true, if_false] at h
        rw [fileEntry_setFile, if_neg hqd, fileEntry_removeFile] at h
        by_cases hqs : q = src
        · rw [if_pos hqs] at h; cases h
        · rwa [if_neg hqs] at h

/-- Outside the destination subtree, a move creates no path. -/
theorem existsPath_move_mono (fs : FS) (src dst q : Path) (hd : ¬ dst <+: q)
    (h : (fs.move src dst).existsPath q = true) : fs.existsPath q = true := by
  have hdd : ¬ (dst ++ [src.getLastD ""]) <+: q :=
    fun hc => hd ((List.prefix_append dst [src.getLastD ""]).trans hc)
  rw [existsPath_iff] at h ⊢
  rcases h with h | h
  · left
    unfold move at h
    by_cases h1 : fs.isDir src = true
    · rw [h1] at h
      simp only [if_true] at h
      by_cases h2 : fs.isDir dst = true
      · rw [h2] at h
        simp only [if_true] at h
        exact isDir_renameTree_outside fs src _ q hdd h
      · rw [Bool.not_eq_true] at h2
        rw [h2] at h
        simp only [Bool.false_eq_true, if_false] at h
        by_cases h3 : fs.existsPath dst = true
        · rw [h3] at h
          simpa using h
        · rw [Bool.not_eq_true] at h3
          rw [h3] at h
          simp only [Bool.false_eq_true, if_false] at h
          exact isDir_renameTree_outside fs src dst q hd h
    · rw [Bool.not_eq_true] at h1
      rw [h1] at h
      simp only [Bool.false_eq_true, if_false] at h
      cases he : fs.fileEntry src with
      | none => rw [he] at h; exact h
      | some e0 =>
        rw [he] at h
        by_cases h2 : fs.isDir dst = true
        · rw [h2] at h
          simp only [if_true] at h
          rwa [isDir_setFile, isDir_removeFile] at h
        · rw [Bool.not_eq_true] at h2
          rw [h2] at h
          simp only [Bool.false_eq_true, if_false] at h
          rwa [isDir_setFile, isDir_removeFile] at h
  · right
    obtain ⟨e, he⟩ := Option.isSome_iff_exists.mp h
    rw [Option.isSome_iff_exists]
    exact ⟨e, fileEntry_move_some_outside fs src dst q hd e he⟩

end FS

/-- The per-level file moves of the walk keep the directory set intact:
every moved child is a file. -/
theorem dirs_fold_move (seq root : Path) :
    ∀ (l : List String) (fs acc : FS), acc.dirs = fs.dirs →
    (∀ n ∈ l, fs.isDir (root ++ [n]) = false) →
    (l.foldl (fun a n => a.move (root ++ [n]) (seq ++ [n])) acc).dirs = fs.dirs := by
  intro l
  induction l with
  | nil => exact fun fs acc h _ => h
  | cons m l ih =>
    intro fs acc h hl
    rw [List.foldl_cons]
    refine ih fs _ ?_ (fun n hn => hl n (List.mem_cons_of_mem m hn))
    have hsrc : acc.isDir (root ++ [m]) = false := by
      unfold FS.isDir
      rw [h]
      exact hl m (List.mem_cons_self m l)
    rw [FS.dirs_move_of_file acc _ _ hsrc, h]

/-- The walk moves only files, so it never changes the directory set. -/
theorem dirs_moveWalk : ∀ (fuel : Nat) (seq : Path) (fs : FS) (root : Path),
    (moveWalk seq fs root fuel).dirs = fs.dirs := by
  intro fuel
  induction fuel with
  | zero => intro seq fs root; rfl
  | succ fuel ih =>
    intro seq fs root
    unfold moveWalk
    by_cases hd : fs.isDir root = true
    · simp only [hd, if_true]
      have h1 : ((fs.childFiles root).foldl
          (fun a n => a.move (root ++ [n]) (seq ++ [n])) fs).dirs = fs.dirs := by
        refine dirs_fold_move seq root (fs.childFiles root) fs fs rfl ?_
        intro n hn
        have := (List.mem_filter.mp hn).2
        simpa using this
      exact (foldl_pres FS.dirs _ (fun acc a => ih seq acc (root ++ [a])) _ _).trans h1
    · simp [hd]

/-- The walk touches nothing outside its root and the sequences
directory. -/
theorem fileEntry_moveWalk_frame : ∀ (fuel : Nat) (seq : Path) (fs : FS) (root q : Path),
    ¬ root <+: q → ¬ seq <+: q →
    (moveWalk seq fs root fuel).fileEntry q = fs.fileEntry q := by
  intro fuel
  induction fuel with
  | zero => intro seq fs root q _ _; rfl
  | succ fuel ih =>
    intro seq fs root q hr hs
    unfold moveWalk
    by_cases hd : fs.isDir root = true
    · simp only [hd, if_true]
      have h1 : ∀ (acc : FS) (m : String),
          (acc.move (root ++ [m]) (seq ++ [m])).fileEntry q = acc.fileEntry q := by
        intro acc m
        refine FS.fileEntry_move_step_frame acc _ _ q ?_ ?_ (Or.inr ?_)
        · exact fun hc => hr ((List.prefix_append root [m]).trans hc)
        · intro hc
          exact hs (((List.prefix_append seq [m]).trans
            (List.prefix_append (seq ++ [m]) _)).trans hc)
        · exact fun hc => hs ((List.prefix_append seq [m]).trans hc)
      have h2 : ∀ (acc : FS) (d : String),
          (moveWalk seq acc (root ++ [d]) fuel).fileEntry q = acc.fileEntry q := by
        intro acc d
        exact ih seq acc (root ++ [d]) q
          (fun hc => hr ((List.prefix_append root [d]).trans hc)) hs
      exact (foldl_pres (fun s => s.fileEntry q) _ h2 _ _).trans
        (foldl_pres (fun s => s.fileEntry q) _ h1 _ _)
    · simp [hd]

/-- The walk creates paths only below the sequences directory. -/
theorem existsPath_moveWalk_mono : ∀ (fuel : Nat) (seq : Path) (fs : FS) (root q : Path),
    ¬ seq <+: q →
    (moveWalk seq fs root fuel).existsPath q = true → fs.existsPath q = true := by
  intro fuel
  induction fuel with
  | zero => exact fun seq fs root q _ h => h
  | succ fuel ih =>
    intro seq fs root q hs h
    unfold moveWalk at h
    by_cases hd : fs.isDir root = true
    · simp only [hd, if_true] at h
      have h1 := existsPath_foldl_mono (fun a d => moveWalk seq a (root ++ [d]) fuel) q
        (fun acc d => ih seq acc (root ++ [d]) q hs) _ _ h
      exact existsPath_foldl_mono (fun a n => a.move (root ++ [n]) (seq ++ [n])) q
        (fun acc m => FS.existsPath_move_mono acc _ _ q
          (fun hc => hs ((List.prefix_append seq [m]).trans hc))) _ _ h1
    · rw [Bool.not_eq_true] at hd
      rw [hd] at h
      simpa using h

/-- Outside the sequences directory, the walk preserves or removes
entries but never creates or changes one. -/
theorem fileEntry_moveWalk_some_outside : ∀ (fuel : Nat) (seq : Path) (fs : FS)
    (root q : Path) (e : String × Bool), ¬ seq <+: q →
    (moveWalk seq fs root fuel).fileEntry q = some e → fs.fileEntry q = some e := by
  intro fuel
  induction fuel with
  | zero => exact fun seq fs root q e _ h => h
  | succ fuel ih =>
    intro seq fs root q e hs h
    unfold moveWalk at h
    by_cases hd : fs.isDir root = true
    · simp only [hd, if_true] at h
      have h1 := fileEntry_foldl_mono (fun a d => moveWalk seq a (root ++ [d]) fuel) q
        (fun acc d e2 => ih seq acc (root ++ [d]) q e2 hs) _ _ e h
      exact fileEntry_foldl_mono (fun a n => a.move (root ++ [n]) (seq ++ [n])) q
        (fun acc m e2 => FS.fileEntry_move_some_outside acc _ _ q
          (fun hc => hs ((List.prefix_append seq [m]).trans hc)) e2) _ _ e h1
    · rw [Bool.not_eq_true] at hd
      rw [hd] at h
      simpa using h

/-- The walk of a subtree that holds no file whose base name is n never
touches the slot n of the sequences directory. -/
theorem fileEntry_moveWalk_seq_slot : ∀ (fuel : Nat) (seq : Path) (fs : FS) (root : Path)
    (n : String), ¬ root <+: seq → ¬ seq <+: root →
    (∀ q e2, fs.fileEntry q = some e2 → root <+: q → q.getLast? ≠ some n) →
    (moveWalk seq fs root fuel).fileEntry (seq ++ [n]) = fs.fileEntry (seq ++ [n]) := by
  intro fuel
  induction fuel with
  | zero => intro seq fs root n _ _ _; rfl
  | succ fuel ih =>
    intro seq fs root n hrs hsr hu
    have hcomp : ∀ q : Path, root <+: q → ¬ seq <+: q := by
      intro q h1 h2
      rcases List.prefix_or_prefix_of_prefix h1 h2 with h | h
      · exact hrs h
      · exact hsr h
    unfold moveWalk
    by_cases hd : fs.isDir root = true
    · simp only [hd, if_true]
      have hnames : ∀ m ∈ fs.childFiles root, m ≠ n := by
        intro m hm
        obtain ⟨hml, hmd⟩ := List.mem_filter.mp hm
        have hmd' : fs.isDir (root ++ [m]) = false := by simpa using hmd
        have hsome : (fs.fileEntry (root ++ [m])).isSome = true := by
          rcases (FS.mem_listdir_iff fs root m).mp hml with h | h
          · rw [hmd'] at h; cases h
          · exact h
        obtain ⟨e2, he2⟩ := Option.isSome_iff_exists.mp hsome
        have hlast := hu (root ++ [m]) e2 he2 (List.prefix_append root [m])
        rw [List.getLast?_concat] at hlast
        intro hc
        exact hlast (by rw [hc])
      have hfiles : ∀ (l : List String), (∀ m ∈ l, m ≠ n) → ∀ acc : FS,
          (l.foldl (fun a m => a.move (root ++ [m]) (seq ++ [m])) acc).fileEntry (seq ++ [n])
            = acc.fileEntry (seq ++ [n]) := by
        intro l
        induction l with
        | nil => intro _ acc; rfl
        | cons m l ihl =>
          intro hl acc
          have hmn : m ≠ n := hl m (List.mem_cons_self m l)
          rw [List.foldl_cons, ihl (fun x hx => hl x (List.mem_cons_of_mem m hx))]
          refine FS.fileEntry_move_step_frame acc _ _ _ ?_ ?_ (Or.inr ?_)
          · intro hc
            rcases prefix_snoc_iff.mp hc with h | h
            · exact hrs ((List.prefix_append root [m]).trans h)
            · have hds : root = seq := by
                have := congrArg List.dropLast h
                simpa [List.dropLast_concat] using this
              exact hrs (by rw [hds])
          · rw [List.getLastD_concat]
            intro hc
            rw [List.append_assoc, List.prefix_append_right_inj] at hc
            have := hc.length_le
            simp at this
          · rw [snoc_prefix_snoc_iff]
            exact hmn
      have hyp1 : ∀ q e2,
          ((fs.childFiles root).foldl
            (fun a m => a.move (root ++ [m]) (seq ++ [m])) fs).fileEntry q = some e2 →
          root <+: q → q.getLast? ≠ some n := by
        intro q e2 hq hpre
        have hq0 := fileEntry_foldl_mono (fun a m => a.move (root ++ [m]) (seq ++ [m])) q
          (fun acc m e3 => FS.fileEntry_move_some_outside acc _ _ q
            (fun hc => hcomp q hpre ((List.prefix_append seq [m]).trans hc)) e3) _ _ e2 hq
        exact hu q e2 hq0 hpre
      have hds2 : ∀ (l : List String), ∀ acc : FS,
          (∀ q e2, acc.fileEntry q = some e2 → root <+: q → q.getLast? ≠ some n) →
          (l.foldl (fun a d => moveWalk seq a (root ++ [d]) fuel) acc).fileEntry (seq ++ [n])
            = acc.fileEntry (seq ++ [n]) := by
        intro l
        induction l with
        | nil => intro acc _; rfl
        | cons d l ihl =>
          intro acc hacc
          have hrsd : ¬ (root ++ [d]) <+: seq :=
            fun hc => hrs ((List.prefix_append root [d]).trans hc)
          have hsrd : ¬ seq <+: (root ++ [d]) := by
            intro hc
            rcases prefix_snoc_iff.mp hc with h | h
            · exact hsr h
            · exact hrs (by rw [h]; exact List.prefix_append root [d])
          have hud : ∀ q e2, acc.fileEntry q = some e2 → (root ++ [d]) <+: q →
              q.getLast? ≠ some n :=
            fun q e2 hq hpre => hacc q e2 hq ((List.prefix_append root [d]).trans hpre)
          have hyp2 : ∀ q e2, (moveWalk seq acc (root ++ [d]) fuel).fileEntry q = some e2 →
              root <+: q → q.getLast? ≠ some n := by
            intro q e2 hq hpre
            exact hacc q e2 (fileEntry_moveWalk_some_outside fuel seq acc (root ++ [d]) q e2
              (hcomp q hpre) hq) hpre
          rw [List.foldl_cons, ihl _ hyp2, ih seq acc (root ++ [d]) n hrsd hsrd hud]
      rw [hds2 _ _ hyp1, hfiles _ hnames fs]
    · simp [hd]

/-- Walking several sibling subtrees, none holding a base-name-n file,
never touches the slot n of the sequences directory. -/
theorem dsfold_seq_slot (fuel : Nat) (seq root : Path) (n : String)
    (hrs : ¬ root <+: seq) (hsr : ¬ seq <+: root) :
    ∀ (l : List String) (acc : FS),
    (∀ q e2, acc.fileEntry q = some e2 → root <+: q → q.getLast? ≠ some n) →
    (l.foldl (fun a d => moveWalk seq a (root ++ [d]) fuel) acc).fileEntry (seq ++ [n])
      = acc.fileEntry (seq ++ [n]) := by
  have hcomp : ∀ q : Path, root <+: q → ¬ seq <+: q := by
    intro q h1 h2
    rcases List.prefix_or_prefix_of_prefix h1 h2 with h | h
    · exact hrs h
    · exact hsr h
  intro l
  induction l with
  | nil => intro acc _; rfl
  | cons d l ihl =>
    intro acc hacc
    have hrsd : ¬ (root ++ [d]) <+: seq :=
      fun hc => hrs ((List.prefix_append root [d]).trans hc)
    have hsrd : ¬ seq <+: (root ++ [d]) := by
      intro hc
      rcases prefix_snoc_iff.mp hc with h | h
      · exact hsr h
      · exact hrs (by rw [h]; exact List.prefix_append root [d])
    have hud : ∀ q e2, acc.fileEntry q = some e2 → (root ++ [d]) <+: q →
        q.getLast? ≠ some n :=
      fun q e2 hq hpre => hacc q e2 hq ((List.prefix_append root [d]).trans hpre)
    have hyp2 : ∀ q e2, (moveWalk seq acc (root ++ [d]) fuel).fileEntry q = some e2 →
        root <+: q → q.getLast? ≠ some n := by
      intro q e2 hq hpre
      exact hacc q e2 (fileEntry_moveWalk_some_outside fuel seq acc (root ++ [d]) q e2
        (hcomp q hpre) hq) hpre
    rw [List.foldl_cons, ihl _ hyp2,
      fileEntry_moveWalk_seq_slot fuel seq acc (root ++ [d]) n hrsd hsrd hud]

/-- The walk of a project subtree moves its unique file with base name
n into the sequences directory slot n (overwriting whatever was there)
and leaves nothing at the original location. -/
theorem moveWalk_moves_file : ∀ (rel : Path) (root : Path) (fs : FS) (fuel : Nat)
    (seq : Path) (n : String) (e : String × Bool),
    ¬ root <+: seq → ¬ seq <+: root →
    fs.fileEntry (root ++ rel ++ [n]) = some e →
    (∀ i, i ≤ rel.length → fs.isDir (root ++ rel.take i) = true) →
    fs.isDir (root ++ rel ++ [n]) = false →
    (∀ q e2, fs.fileEntry q = some e2 → root <+: q → q.getLast? = some n →
      q = root ++ rel ++ [n]) →
    fs.isDir (seq ++ [n]) = false →
    rel.length < fuel →
    (moveWalk seq fs root fuel).fileEntry (seq ++ [n]) = some e ∧
    (moveWalk seq fs root fuel).fileEntry (root ++ rel ++ [n]) = none := by
  intro rel
  induction rel with
  | nil =>
    intro root fs fuel seq n e hrs hsr hfile hchain hfd hu hdst hfuel
    obtain ⟨f, rfl⟩ : ∃ f, fuel = f + 1 := ⟨fuel - 1, by omega⟩
    have hroot : fs.isDir root = true := by simpa using hchain 0 (by omega)
    simp only [List.append_nil] at hfile hfd hu ⊢
    have hcomp : ∀ q : Path, root <+: q → ¬ seq <+: q := by
      intro q h1 h2
      rcases List.prefix_or_prefix_of_prefix h1 h2 with h | h
      · exact hrs h
      · exact hsr h
    have hrsn : ¬ root <+: seq ++ [n] := by
      intro hc
      rcases prefix_snoc_iff.mp hc with h | h
      · exact hrs h
      · exact hsr (by rw [h]; exact List.prefix_append seq [n])
    unfold moveWalk
    simp only [hroot, if_true]
    have hnin : n ∈ fs.childFiles root := by
      unfold FS.childFiles
      rw [List.mem_filter]
      constructor
      · rw [FS.mem_listdir_iff]
        right
        rw [hfile]
        rfl
      · simpa using hfd
    obtain ⟨v1, v2, hsp⟩ := List.append_of_mem hnin
    have hnodup : (fs.childFiles root).Nodup := (FS.nodup_listdir fs root).filter _
    have hnodup2 := hnodup
    rw [hsp] at hnodup2
    obtain ⟨hnd1, hnd2, hdisj⟩ := List.nodup_append.mp hnodup2
    have hn2 : ¬ n ∈ v2 := (List.nodup_cons.mp hnd2).1
    have hn1 : ¬ n ∈ v1 := fun h => hdisj h (List.mem_cons_self n v2)
    have hstep1 : ∀ (acc : FS) (m : String), m ≠ n →
        (acc.move (root ++ [m]) (seq ++ [m])).fileEntry (root ++ [n])
          = acc.fileEntry (root ++ [n]) := by
      intro acc m hmn
      refine FS.fileEntry_move_step_frame acc _ _ _ ?_ ?_ (Or.inr ?_)
      · rw [snoc_prefix_snoc_iff]
        exact hmn
      · rw [List.getLastD_concat]
        intro hc
        exact hcomp (root ++ [n]) (List.prefix_append root [n])
          (((List.prefix_append seq [m]).trans (List.prefix_append (seq ++ [m]) [m])).trans hc)
      · intro hc
        exact hcomp (root ++ [n]) (List.prefix_append root [n])
          ((List.prefix_append seq [m]).trans hc)
    have hstep2 : ∀ (acc : FS) (m : String), m ≠ n →
        (acc.move (root ++ [m]) (seq ++ [m])).fileEntry (seq ++ [n])
          = acc.fileEntry (seq ++ [n]) := by
      intro acc m hmn
      refine FS.fileEntry_move_step_frame acc _ _ _ ?_ ?_ (Or.inr ?_)
      · intro hc
        exact hrsn ((List.prefix_append root [m]).trans hc)
      · rw [List.getLastD_concat]
        intro hc
        rw [List.append_assoc, List.prefix_append_right_inj] at hc
        have := hc.length_le
        simp at this
      · rw [snoc_prefix_snoc_iff]
        exact hmn
    rw [hsp, List.foldl_append, List.foldl_cons]
    set B := v1.foldl (fun a m => a.move (root ++ [m]) (seq ++ [m])) fs with hB
    have hBdirs : B.dirs = fs.dirs := by
      rw [hB]
      refine dirs_fold_move seq root v1 fs fs rfl ?_
      intro m hm
      have hmf : m ∈ fs.childFiles root := by
        rw [hsp]
        exact List.mem_append_left _ hm
      have := (List.mem_filter.mp hmf).2
      simpa using this
    have hBfile : B.fileEntry (root ++ [n]) = some e := by
      rw [hB]
      exact (foldl_pres_mem (fun s => s.fileEntry (root ++ [n])) _ v1
        (fun acc m hm => hstep1 acc m (fun hc => hn1 (hc ▸ hm))) fs).trans hfile
    have hBsd : B.isDir (root ++ [n]) = false := by
      have heq : B.isDir (root ++ [n]) = fs.isDir (root ++ [n]) := by
        unfold FS.isDir
        rw [hBdirs]
      rw [heq]
      exact hfd
    have hBdst : B.isDir (seq ++ [n]) = false := by
      have heq : B.isDir (seq ++ [n]) = fs.isDir (seq ++ [n]) := by
        unfold FS.isDir
        rw [hBdirs]
      rw [heq]
      exact hdst
    have hne_sd : root ++ [n] ≠ seq ++ [n] := by
      intro hc
      have hre : root = seq := by
        have := congrArg List.dropLast hc
        simpa [List.dropLast_concat] using this
      exact hrs (by rw [hre])
    set C := B.move (root ++ [n]) (seq ++ [n]) with hC
    have hCslot : C.fileEntry (seq ++ [n]) = some e :=
      FS.fileEntry_move_file_dst B _ _ e hBsd hBfile hBdst
    have hCsrc : C.fileEntry (root ++ [n]) = none :=
      FS.fileEntry_move_file_src B _ _ e hBsd hBfile hBdst hne_sd
    have hCdirs : C.dirs = fs.dirs := by
      rw [hC, FS.dirs_move_of_file B _ _ hBsd, hBdirs]
    set D := v2.foldl (fun a m => a.move (root ++ [m]) (seq ++ [m])) C with hD
    have hDslot : D.fileEntry (seq ++ [n]) = some e := by
      rw [hD]
      exact (foldl_pres_mem (fun s => s.fileEntry (seq ++ [n])) _ v2
        (fun acc m hm => hstep2 acc m (fun hc => hn2 (hc ▸ hm))) C).trans hCslot
    have hDsrc : D.fileEntry (root ++ [n]) = none := by
      rw [hD]
      exact (foldl_pres_mem (fun s => s.fileEntry (root ++ [n])) _ v2
        (fun acc m hm => hstep1 acc m (fun hc => hn2 (hc ▸ hm))) C).trans hCsrc
    have hmono_file : ∀ (l : List String) (a0 : FS) (q : Path) (e2 : String × Bool),
        ¬ seq <+: q →
        (l.foldl (fun a m => a.move (root ++ [m]) (seq ++ [m])) a0).fileEntry q = some e2 →
        a0.fileEntry q = some e2 := by
      intro l a0 q e2 hnsq h
      exact fileEntry_foldl_mono _ q (fun acc m e3 h3 => FS.fileEntry_move_some_outside acc _ _ q
        (fun hc => hnsq ((List.prefix_append seq [m]).trans hc)) e3 h3) l a0 e2 h
    have hypD : ∀ q e2, D.fileEntry q = some e2 → root <+: q → q.getLast? ≠ some n := by
      intro q e2 hq hpre hlast
      have hnsq := hcomp q hpre
      have h1 : C.fileEntry q = some e2 := by
        rw [hD] at hq
        exact hmono_file v2 C q e2 hnsq hq
      have h2 : B.fileEntry q = some e2 := by
        rw [hC] at h1
        refine FS.fileEntry_move_some_outside B _ _ q ?_ e2 h1
        exact fun hc => hnsq ((List.prefix_append seq [n]).trans hc)
      have h3 : fs.fileEntry q = some e2 := by
        rw [hB] at h2
        exact hmono_file v1 fs q e2 hnsq h2
      have hqn := hu q e2 h3 hpre hlast
      rw [hqn, hDsrc] at hq
      cases hq
    have hfinal_slot := (dsfold_seq_slot f seq root n hrs hsr (fs.childDirs root) D hypD).trans
      hDslot
    have hstep3 : ∀ (acc : FS) (d : String), d ∈ fs.childDirs root →
        (moveWalk seq acc (root ++ [d]) f).fileEntry (root ++ [n])
          = acc.fileEntry (root ++ [n]) := by
      intro acc d hd2
      have hdn : d ≠ n := by
        intro hc
        have hdd := (List.mem_filter.mp hd2).2
        rw [hc] at hdd
        rw [hfd] at hdd
        cases hdd
      refine fileEntry_moveWalk_frame f seq acc (root ++ [d]) (root ++ [n]) ?_ ?_
      · rw [snoc_prefix_snoc_iff]
        exact hdn
      · exact hcomp (root ++ [n]) (List.prefix_append root [n])
    have hfinal_src := (foldl_pres_mem (fun s => s.fileEntry (root ++ [n])) _
      (fs.childDirs root) hstep3 D).trans hDsrc
    exact ⟨hfinal_slot, hfinal_src⟩
  | cons c rel ih =>
    intro root fs fuel seq n e hrs hsr hfile hchain hfd hu hdst hfuel
    obtain ⟨f, rfl⟩ : ∃ f, fuel = f + 1 := ⟨fuel - 1, by omega⟩
    have hroot : fs.isDir root = true := by simpa using hchain 0 (by omega)
    have hcomp : ∀ q : Path, root <+: q → ¬ seq <+: q := by
      intro q h1 h2
      rcases List.prefix_or_prefix_of_prefix h1 h2 with h | h
      · exact hrs h
      · exact hsr h
    have hcdir : fs.isDir (root ++ [c]) = true := by simpa using hchain 1 (by simp)
    have hF1 : root ++ (c :: rel) ++ [n] = (root ++ [c]) ++ rel ++ [n] := by
      rw [List.append_cons root c rel]
    rw [hF1] at hfile hfd hu ⊢
    have hchainA : ∀ i, i ≤ rel.length → fs.isDir ((root ++ [c]) ++ rel.take i) = true := by
      intro i hi
      have h1 := hchain (i + 1) (by simpa using Nat.succ_le_succ hi)
      rw [List.take_succ_cons] at h1
      rw [List.append_assoc]
      simpa using h1
    have hrootF1 : root <+: (root ++ [c]) ++ rel ++ [n] :=
      ((List.prefix_append root [c]).trans (List.prefix_append (root ++ [c]) rel)).trans
        (List.prefix_append _ [n])
    unfold moveWalk
    simp only [hroot, if_true]
    have hmnec : ∀ m ∈ fs.childFiles root, m ≠ c := by
      intro m hm hc2
      have hmd := (List.mem_filter.mp hm).2
      rw [hc2] at hmd
      rw [hcdir] at hmd
      cases hmd
    have hprefc : ∀ (m : String), root ++ [m] <+: (root ++ [c]) ++ rel ++ [n] → m = c := by
      intro m hc2
      have hthis : root ++ [m] <+: root ++ ([c] ++ (rel ++ [n])) := by
        simpa [List.append_assoc] using hc2
      rw [List.prefix_append_right_inj, List.singleton_append, List.cons_prefix_cons] at hthis
      exact hthis.1
    have hstepF : ∀ (acc : FS) (m : String), m ≠ c →
        (acc.move (root ++ [m]) (seq ++ [m])).fileEntry ((root ++ [c]) ++ rel ++ [n])
          = acc.fileEntry ((root ++ [c]) ++ rel ++ [n]) := by
      intro acc m hmc
      refine FS.fileEntry_move_step_frame acc _ _ _ ?_ ?_ (Or.inr ?_)
      · exact fun hc2 => hmc (hprefc m hc2)
      · rw [List.getLastD_concat]
        intro hc2
        exact hcomp _ hrootF1
          (((List.prefix_append seq [m]).trans (List.prefix_append (seq ++ [m]) [m])).trans hc2)
      · intro hc2
        exact hcomp _ hrootF1 ((List.prefix_append seq [m]).trans hc2)
    set E := (fs.childFiles root).foldl (fun a m => a.move (root ++ [m]) (seq ++ [m])) fs with hE
    have hEdirs : E.dirs = fs.dirs := by
      rw [hE]
      refine dirs_fold_move seq root (fs.childFiles root) fs fs rfl ?_
      intro m hm
      have := (List.mem_filter.mp hm).2
      simpa using this
    have hEfile : E.fileEntry ((root ++ [c]) ++ rel ++ [n]) = some e := by
      rw [hE]
      exact (foldl_pres_mem (fun s => s.fileEntry ((root ++ [c]) ++ rel ++ [n])) _ _
        (fun acc m hm => hstepF acc m (hmnec m hm)) fs).trans hfile
    have hEmono : ∀ q e2, E.fileEntry q = some e2 → ¬ seq <+: q → fs.fileEntry q = some e2 := by
      intro q e2 hq hnsq
      rw [hE] at hq
      exact fileEntry_foldl_mono _ q (fun acc m e3 h3 => FS.fileEntry_move_some_outside acc _ _ q
        (fun hc2 => hnsq ((List.prefix_append seq [m]).trans hc2)) e3 h3) _ _ e2 hq
    have hcds : c ∈ fs.childDirs root := by
      unfold FS.childDirs
      rw [List.mem_filter]
      refine ⟨?_, hcdir⟩
      rw [FS.mem_listdir_iff]
      exact Or.inl hcdir
    obtain ⟨u1, u2, hsp⟩ := List.append_of_mem hcds
    have hnodup : (fs.childDirs root).Nodup := (FS.nodup_listdir fs root).filter _
    rw [hsp] at hnodup
    obtain ⟨hnd1, hnd2, hdisj⟩ := List.nodup_append.mp hnodup
    have hcu2 : ¬ c ∈ u2 := (List.nodup_cons.mp hnd2).1
    have hcu1 : ¬ c ∈ u1 := fun h => hdisj h (List.mem_cons_self c u2)
    rw [hsp, List.foldl_append, List.foldl_cons]
    have hstepW : ∀ (acc : FS) (d : String), d ≠ c →
        (moveWalk seq acc (root ++ [d]) f).fileEntry ((root ++ [c]) ++ rel ++ [n])
          = acc.fileEntry ((root ++ [c]) ++ rel ++ [n]) := by
      intro acc d hdc
      refine fileEntry_moveWalk_frame f seq acc (root ++ [d]) _ ?_ (hcomp _ hrootF1)
      exact fun hc2 => hdc (hprefc d hc2)
    set G := u1.foldl (fun a d => moveWalk seq a (root ++ [d]) f) E with hG
    have hGdirs : G.dirs = fs.dirs := by
      rw [hG]
      exact (foldl_pres FS.dirs _ (fun acc a => dirs_moveWalk f seq acc (root ++ [a])) u1 E).trans
        hEdirs
    have hGfile : G.fileEntry ((root ++ [c]) ++ rel ++ [n]) = some e := by
      rw [hG]
      exact (foldl_pres_mem (fun s => s.fileEntry ((root ++ [c]) ++ rel ++ [n])) _ u1
        (fun acc d hd2 => hstepW acc d (fun hc2 => hcu1 (hc2 ▸ hd2))) E).trans hEfile
    have hGmono : ∀ q e2, G.fileEntry q = some e2 → ¬ seq <+: q → fs.fileEntry q = some e2 := by
      intro q e2 hq hnsq
      rw [hG] at hq
      have h1 : E.fileEntry q = some e2 :=
        fileEntry_foldl_mono _ q (fun acc d e3 h3 =>
          fileEntry_moveWalk_some_outside f seq acc (root ++ [d]) q e3 hnsq h3) u1 E e2 hq
      exact hEmono q e2 h1 hnsq
    have hrs2 : ¬ (root ++ [c]) <+: seq := fun hc2 => hrs ((List.prefix_append root [c]).trans hc2)
    have hsr2 : ¬ seq <+: (root ++ [c]) := by
      intro hc2
      rcases prefix_snoc_iff.mp hc2 with h | h
      · exact hsr h
      · exact hrs (by rw [h]; exact List.prefix_append root [c])
    have hGchain : ∀ i, i ≤ rel.length → G.isDir ((root ++ [c]) ++ rel.take i) = true := by
      intro i hi
      have heq : G.isDir ((root ++ [c]) ++ rel.take i)
          = fs.isDir ((root ++ [c]) ++ rel.take i) := by
        unfold FS.isDir
        rw [hGdirs]
      rw [heq]
      exact hchainA i hi
    have hGfd : G.isDir ((root ++ [c]) ++ rel ++ [n]) = false := by
      have heq : G.isDir ((root ++ [c]) ++ rel ++ [n])
          = fs.isDir ((root ++ [c]) ++ rel ++ [n]) := by
        unfold FS.isDir
        rw [hGdirs]
      rw [heq]
      exact hfd
    have hGdst : G.isDir (seq ++ [n]) = false := by
      have heq : G.isDir (seq ++ [n]) = fs.isDir (seq ++ [n]) := by
        unfold FS.isDir
        rw [hGdirs]
      rw [heq]
      exact hdst
    have hGuniq : ∀ q e2, G.fileEntry q = some e2 → (root ++ [c]) <+: q →
        q.getLast? = some n → q = (root ++ [c]) ++ rel ++ [n] := by
      intro q e2 hq hpre hlast
      have hrootq : root <+: q := (List.prefix_append root [c]).trans hpre
      have h1 := hGmono q e2 hq (hcomp q hrootq)
      exact hu q e2 h1 hrootq hlast
    have hGfuel : rel.length < f := by
      simp only [List.length_cons] at hfuel
      omega
    obtain ⟨hHslot, hHsrc⟩ :=
      ih (root ++ [c]) G f seq n e hrs2 hsr2 hGfile hGchain hGfd hGuniq hGdst hGfuel
    set H := moveWalk seq G (root ++ [c]) f with hH
    have hypH : ∀ q e2, H.fileEntry q = some e2 → root <+: q → q.getLast? ≠ some n := by
      intro q e2 hq hpre hlast
      have hnsq := hcomp q hpre
      have h1 : G.fileEntry q = some e2 := by
        rw [hH] at hq
        exact fileEntry_moveWalk_some_outside f seq G (root ++ [c]) q e2 hnsq hq
      have h2 := hGmono q e2 h1 hnsq
      have hqF1 := hu q e2 h2 hpre hlast
      rw [hqF1, hHsrc] at hq
      cases hq
    have hfinal_slot := (dsfold_seq_slot f seq root n hrs hsr u2 H hypH).trans hHslot
    have hfinal_src := (foldl_pres_mem
      (fun s => s.fileEntry ((root ++ [c]) ++ rel ++ [n])) _ u2
      (fun acc d hd2 => hstepW acc d (fun hc2 => hcu2 (hc2 ▸ hd2))) H).trans hHsrc
    exact ⟨hfinal_slot, hfinal_src⟩

/-- A sibling-extension prefix forces equal first components. -/
theorem snoc_prefix_append3 {P : Path} {a b : String} {X Y : Path}
    (h : P ++ [a] <+: P ++ [b] ++ X ++ Y) : a = b := by
  have h2 : P ++ [a] <+: P ++ ([b] ++ (X ++ Y)) := by simpa [List.append_assoc] using h
  rw [List.prefix_append_right_inj, List.singleton_append, List.cons_prefix_cons] at h2
  exact h2.1

/-- Two-append variant of snoc_prefix_append3. -/
theorem snoc_prefix_snoc_append {P : Path} {a b : String} {X : Path}
    (h : P ++ [a] <+: P ++ [b] ++ X) : a = b := by
  have h2 : P ++ [a] <+: P ++ ([b] ++ X) := by simpa [List.append_assoc] using h
  rw [List.prefix_append_right_inj, List.singleton_append, List.cons_prefix_cons] at h2
  exact h2.1

/-- mkdirs only adds directories. -/
theorem isDir_mkdirs_true (fs : FS) (p q : Path) (h : fs.isDir q = true) :
    (fs.mkdirs p).isDir q = true :=
  (FS.isDir_mkdirs_iff fs p q).mpr (Or.inr h)

/-- mkdirs creates no directory outside the prefixes of its argument. -/
theorem isDir_mkdirs_false (fs : FS) (p q : Path) (hq : ¬ q <+: p) (h : fs.isDir q = false) :
    (fs.mkdirs p).isDir q = false := by
  apply Bool.eq_false_iff.mpr
  intro htrue
  rcases (FS.isDir_mkdirs_iff fs p q).mp htrue with ⟨i, hi, hqe⟩ | h2
  · exact hq (hqe ▸ List.take_prefix (i + 1) p)
  · rw [h] at h2
    cases h2

/-- Reduction of the per-project body for a non-configurations project
whose path is present. -/
theorem processProject_nonconfig_eq (seq : Path) (fs : FS) (pr : Project) (p : Path)
    (hp : pr.path = some p) (hne : p ≠ []) (hex : fs.existsPath p = true)
    (hname : pr.name ≠ some "configurations") :
    processProject seq fs pr = (moveWalk seq fs p (fs.depth + 1)).rmtree p := by
  unfold processProject
  rw [hp]
  have h1 : p.isEmpty = false := by
    cases p with
    | nil => exact absurd rfl hne
    | cons a l => rfl
  have h3 : (pr.name == some "configurations") = false := by
    apply Bool.eq_false_iff.mpr
    intro hc
    exact hname (by simpa using hc)
  simp only [h1, Bool.false_eq_true, if_false, hex, Bool.not_true, h3]

/-- Reduction of the per-project body for the configurations project. -/
theorem processProject_config_eq (seq : Path) (fs : FS) (pr : Project) (p : Path)
    (hp : pr.path = some p) (hne : p ≠ []) (hex : fs.existsPath p = true)
    (hname : pr.name = some "configurations") :
    processProject seq fs pr =
      ((fs.listdir p).foldl (fun acc m => acc.move (p ++ [m]) (seq.dropLast ++ [m])) fs).rmtree
        p := by
  unfold processProject
  rw [hp]
  have h1 : p.isEmpty = false := by
    cases p with
    | nil => exact absurd rfl hne
    | cons a l => rfl
  have h3 : (pr.name == some "configurations") = true := by simp [hname]
  simp only [h1, Bool.false_eq_true, if_false, hex, Bool.not_true, h3, if_true]

/-- C5: for two sibling non-configurations projects that each hold one
file with the shared base name n (at arbitrary depths), after
reorganization the sequences directory holds that name with the content
of the file of the second project -- the last moved, in manifest order
and walk order -- and both project directories are gone.  In this state
model a path carries at most one entry, so holding the second content at
the sequences slot is the exactly-one-file-last-wins property. -/
theorem C5_merge_collision_last_wins (fs : FS) (P r1 r2 : Path) (d1 d2 n : String)
    (e1 e2c : String × Bool) (p1 p2 : Project)
    (hp1path : p1.path = some (P ++ [d1])) (hp2path : p2.path = some (P ++ [d2]))
    (hp1name : p1.name ≠ some "configurations") (hp2name : p2.name ≠ some "configurations")
    (hd12 : d1 ≠ d2) (hd1s : d1 ≠ "sequences") (hd2s : d2 ≠ "sequences")
    (hnscj : n ≠ "sequence_config.json")
    (hfile1 : fs.fileEntry (P ++ [d1] ++ r1 ++ [n]) = some e1)
    (hchain1 : ∀ i, i ≤ r1.length → fs.isDir (P ++ [d1] ++ r1.take i) = true)
    (hfd1 : fs.isDir (P ++ [d1] ++ r1 ++ [n]) = false)
    (huniq1 : ∀ q e', fs.fileEntry q = some e' → (P ++ [d1]) <+: q → q.getLast? = some n →
      q = P ++ [d1] ++ r1 ++ [n])
    (hfile2 : fs.fileEntry (P ++ [d2] ++ r2 ++ [n]) = some e2c)
    (hchain2 : ∀ i, i ≤ r2.length → fs.isDir (P ++ [d2] ++ r2.take i) = true)
    (hfd2 : fs.isDir (P ++ [d2] ++ r2 ++ [n]) = false)
    (huniq2 : ∀ q e', fs.fileEntry q = some e' → (P ++ [d2]) <+: q → q.getLast? = some n →
      q = P ++ [d2] ++ r2 ++ [n])
    (hdstn : fs.isDir (P ++ ["sequences"] ++ [n]) = false) :
    (move_files_to_sequences_and_merge fs [p1, p2]).fileEntry (P ++ ["sequences"] ++ [n])
      = some e2c ∧
    (move_files_to_sequences_and_merge fs [p1, p2]).existsPath (P ++ [d1]) = false ∧
    (move_files_to_sequences_and_merge fs [p1, p2]).existsPath (P ++ [d2]) = false := by
  have hseqOf : seqPathOf [p1, p2] = some (P ++ ["sequences"]) := by
    unfold seqPathOf
    have hf : List.find? (fun pr => truthyPath pr.path) [p1, p2] = some p1 :=
      List.find?_cons_of_pos [p2] (by show truthyPath p1.path = true; rw [hp1path]; simp [truthyPath])
    simp only [hf, hp1path, List.dropLast_concat]
  have h1s : ¬ (P ++ [d1]) <+: (P ++ ["sequences"]) := by
    rw [snoc_prefix_snoc_iff]
    exact hd1s
  have hs1 : ¬ (P ++ ["sequences"]) <+: (P ++ [d1]) := by
    rw [snoc_prefix_snoc_iff]
    exact fun h => hd1s h.symm
  have h2s : ¬ (P ++ [d2]) <+: (P ++ ["sequences"]) := by
    rw [snoc_prefix_snoc_iff]
    exact hd2s
  have hs2 : ¬ (P ++ ["sequences"]) <+: (P ++ [d2]) := by
    rw [snoc_prefix_snoc_iff]
    exact fun h => hd2s h.symm
  have hq2pre : (P ++ [d2]) <+: (P ++ [d2] ++ r2 ++ [n]) :=
    (List.prefix_append (P ++ [d2]) r2).trans (List.prefix_append _ [n])
  have hq1pre : (P ++ [d1]) <+: (P ++ [d1] ++ r1 ++ [n]) :=
    (List.prefix_append (P ++ [d1]) r1).trans (List.prefix_append _ [n])
  have hnp1q2 : ¬ (P ++ [d1]) <+: (P ++ [d2] ++ r2 ++ [n]) :=
    fun hc => hd12 (snoc_prefix_append3 hc)
  have hnsq2 : ¬ (P ++ ["sequences"]) <+: (P ++ [d2] ++ r2 ++ [n]) :=
    fun hc => hd2s (snoc_prefix_append3 hc).symm
  have hnsq1 : ¬ (P ++ ["sequences"]) <+: (P ++ [d1] ++ r1 ++ [n]) :=
    fun hc => hd1s (snoc_prefix_append3 hc).symm
  have hnp2sn : ¬ (P ++ [d2]) <+: (P ++ ["sequences"] ++ [n]) :=
    fun hc => hd2s (snoc_prefix_snoc_append hc)
  have hnp1sn : ¬ (P ++ [d1]) <+: (P ++ ["sequences"] ++ [n]) :=
    fun hc => hd1s (snoc_prefix_snoc_append hc)
  set fs1 := (if fs.existsPath (P ++ ["sequences"]) = true then fs
    else fs.mkdirs (P ++ ["sequences"])) with hfs1
  have hfs1fe : ∀ q, fs1.fileEntry q = fs.fileEntry q := by
    intro q
    rw [hfs1]
    by_cases h : fs.existsPath (P ++ ["sequences"]) = true
    · rw [if_pos h]
    · rw [if_neg h]
      exact FS.fileEntry_mkdirs fs _ q
  have hfs1dT : ∀ q, fs.isDir q = true → fs1.isDir q = true := by
    intro q h
    rw [hfs1]
    by_cases hc : fs.existsPath (P ++ ["sequences"]) = true
    · rw [if_pos hc]
      exact h
    · rw [if_neg hc]
      exact isDir_mkdirs_true fs _ q h
  have hfs1dF : ∀ q, ¬ q <+: (P ++ ["sequences"]) → fs.isDir q = false → fs1.isDir q = false := by
    intro q hq h
    rw [hfs1]
    by_cases hc : fs.existsPath (P ++ ["sequences"]) = true
    · rw [if_pos hc]
      exact h
    · rw [if_neg hc]
      exact isDir_mkdirs_false fs _ q hq h
  have hnq1s : ¬ (P ++ [d1] ++ r1 ++ [n]) <+: (P ++ ["sequences"]) :=
    fun hc => h1s (hq1pre.trans hc)
  have hnq2s : ¬ (P ++ [d2] ++ r2 ++ [n]) <+: (P ++ ["sequences"]) :=
    fun hc => h2s (hq2pre.trans hc)
  have hnsns : ¬ (P ++ ["sequences"] ++ [n]) <+: (P ++ ["sequences"]) := by
    refine not_prefix_of_longer ?_
    simp only [List.length_append, List.length_cons, List.length_nil]
    omega
  have hd1chain0 : fs.isDir (P ++ [d1]) = true := by simpa using hchain1 0 (by omega)
  have hd2chain0 : fs.isDir (P ++ [d2]) = true := by simpa using hchain2 0 (by omega)
  have hfs1ex1 : fs1.existsPath (P ++ [d1]) = true := by
    have := hfs1dT _ hd1chain0
    simp [FS.existsPath, this]
  have hfuel1 : r1.length < fs1.depth + 1 := by
    have hdir : fs1.isDir (P ++ [d1] ++ r1) = true := by
      refine hfs1dT _ ?_
      have := hchain1 r1.length (le_refl _)
      rwa [List.take_length] at this
    have hmem := (FS.isDir_iff_mem fs1 _).mp hdir
    have hlen := length_le_depth fs1 _ hmem
    simp only [List.length_append, List.length_cons, List.length_nil] at hlen
    omega
  obtain ⟨hW1slot, hW1src⟩ := moveWalk_moves_file r1 (P ++ [d1]) fs1 (fs1.depth + 1)
    (P ++ ["sequences"]) n e1 h1s hs1
    (by rw [hfs1fe]; exact hfile1)
    (fun i hi => hfs1dT _ (hchain1 i hi))
    (hfs1dF _ hnq1s hfd1)
    (fun q e' hq hpre hlast => huniq1 q e' (by rwa [hfs1fe] at hq) hpre hlast)
    (hfs1dF _ hnsns hdstn)
    hfuel1
  set W1 := moveWalk (P ++ ["sequences"]) fs1 (P ++ [d1]) (fs1.depth + 1) with hW1
  set S1 := W1.rmtree (P ++ [d1]) with hS1
  have hW1dirs : W1.dirs = fs1.dirs := by
    rw [hW1]
    exact dirs_moveWalk _ _ _ _
  have hW1isDir : ∀ q, W1.isDir q = fs1.isDir q := by
    intro q
    unfold FS.isDir
    rw [hW1dirs]
  have hS1f2 : S1.fileEntry (P ++ [d2] ++ r2 ++ [n]) = some e2c := by
    rw [hS1, FS.fileEntry_rmtree, if_neg hnp1q2, hW1,
      fileEntry_moveWalk_frame _ _ _ _ _ hnp1q2 hnsq2, hfs1fe]
    exact hfile2
  have hS1chain2 : ∀ i, i ≤ r2.length → S1.isDir (P ++ [d2] ++ r2.take i) = true := by
    intro i hi
    have hnp : ¬ (P ++ [d1]) <+: (P ++ [d2] ++ r2.take i) :=
      fun hc => hd12 (snoc_prefix_snoc_append hc)
    rw [hS1, FS.isDir_rmtree, hW1isDir]
    simp only [hnp, decide_False, Bool.not_false, Bool.true_and]
    exact hfs1dT _ (hchain2 i hi)
  have hS1fd2 : S1.isDir (P ++ [d2] ++ r2 ++ [n]) = false := by
    rw [hS1, FS.isDir_rmtree, hW1isDir, hfs1dF _ hnq2s hfd2]
    simp
  have hS1dstn : S1.isDir (P ++ ["sequences"] ++ [n]) = false := by
    rw [hS1, FS.isDir_rmtree, hW1isDir, hfs1dF _ hnsns hdstn]
    simp
  have hS1uniq2 : ∀ q e', S1.fileEntry q = some e' → (P ++ [d2]) <+: q →
      q.getLast? = some n → q = P ++ [d2] ++ r2 ++ [n] := by
    intro q e' hq hpre hlast
    rw [hS1, FS.fileEntry_rmtree] at hq
    by_cases hp1q : (P ++ [d1]) <+: q
    · rw [if_pos hp1q] at hq
      cases hq
    · rw [if_neg hp1q] at hq
      have hnsq : ¬ (P ++ ["sequences"]) <+: q := by
        intro hc
        rcases List.prefix_or_prefix_of_prefix hpre hc with h | h
        · exact h2s h
        · exact hs2 h
      rw [hW1] at hq
      have h2 := fileEntry_moveWalk_some_outside _ _ _ _ q e' hnsq hq
      rw [hfs1fe] at h2
      exact huniq2 q e' h2 hpre hlast
  have hS1ex2 : S1.existsPath (P ++ [d2]) = true := by
    have := hS1chain2 0 (by omega)
    simp only [List.take_zero, List.append_nil] at this
    simp [FS.existsPath, this]
  have hS1nex1 : S1.existsPath (P ++ [d1]) = false := by
    rw [hS1]
    exact existsPath_rmtree_under W1 _ _ List.prefix_rfl
  have hfuel2 : r2.length < S1.depth + 1 := by
    have hdir : S1.isDir (P ++ [d2] ++ r2) = true := by
      have := hS1chain2 r2.length (le_refl _)
      rwa [List.take_length] at this
    have hmem := (FS.isDir_iff_mem S1 _).mp hdir
    have hlen := length_le_depth S1 _ hmem
    simp only [List.length_append, List.length_cons, List.length_nil] at hlen
    omega
  obtain ⟨hW2slot, hW2src⟩ := moveWalk_moves_file r2 (P ++ [d2]) S1 (S1.depth + 1)
    (P ++ ["sequences"]) n e2c h2s hs2 hS1f2 hS1chain2 hS1fd2 hS1uniq2 hS1dstn hfuel2
  set W2 := moveWalk (P ++ ["sequences"]) S1 (P ++ [d2]) (S1.depth + 1) with hW2
  set S2 := W2.rmtree (P ++ [d2]) with hS2
  have hS2slot : S2.fileEntry (P ++ ["sequences"] ++ [n]) = some e2c := by
    rw [hS2, FS.fileEntry_rmtree, if_neg hnp2sn]
    exact hW2slot
  have hS2nex2 : S2.existsPath (P ++ [d2]) = false := by
    rw [hS2]
    exact existsPath_rmtree_under W2 _ _ List.prefix_rfl
  have hS2nex1 : S2.existsPath (P ++ [d1]) = false := by
    have hW2nex1 : W2.existsPath (P ++ [d1]) = false := by
      apply Bool.eq_false_iff.mpr
      intro h
      rw [hW2] at h
      have := existsPath_moveWalk_mono _ _ _ _ _ hs1 h
      rw [hS1nex1] at this
      cases this
    apply Bool.eq_false_iff.mpr
    intro h
    rw [hS2] at h
    have := existsPath_rmtree_mono W2 _ _ h
    rw [hW2nex1] at this
    cases this
  have hre : move_files_to_sequences_and_merge fs [p1, p2] =
      moveSequenceConfig (processProject (P ++ ["sequences"])
        (processProject (P ++ ["sequences"]) fs1 p1) p2) (P ++ ["sequences"]) := by
    unfold move_files_to_sequences_and_merge
    rw [hseqOf]
    rfl
  have hproc1 : processProject (P ++ ["sequences"]) fs1 p1 = S1 := by
    rw [hS1, hW1]
    exact processProject_nonconfig_eq _ fs1 p1 _ hp1path (by simp) hfs1ex1 hp1name
  have hproc2 : processProject (P ++ ["sequences"]) S1 p2 = S2 := by
    rw [hS2, hW2]
    exact processProject_nonconfig_eq _ S1 p2 _ hp2path (by simp) hS1ex2 hp2name
  rw [hre, hproc1, hproc2]
  unfold moveSequenceConfig
  by_cases hex : S2.existsPath ((P ++ ["sequences"]).dropLast ++ ["sequence_config.json"]) = true
  · rw [if_pos hex]
    have hPd : (P ++ ["sequences"]).dropLast = P := List.dropLast_concat
    have hfr : (S2.move ((P ++ ["sequences"]).dropLast ++ ["sequence_config.json"])
        (P ++ ["sequences"] ++ ["sequence_config.json"])).fileEntry
        (P ++ ["sequences"] ++ [n]) = S2.fileEntry (P ++ ["sequences"] ++ [n]) := by
      refine FS.fileEntry_move_step_frame S2 _ _ _ ?_ ?_ (Or.inr ?_)
      · rw [hPd]
        intro hc
        have := snoc_prefix_snoc_append hc
        exact absurd this (by decide)
      · rw [hPd, List.getLastD_concat]
        intro hc
        rw [List.append_assoc (P ++ ["sequences"]), List.prefix_append_right_inj] at hc
        have := hc.length_le
        simp at this
      · rw [snoc_prefix_snoc_iff]
        exact fun h => hnscj h.symm
    refine ⟨hfr.trans hS2slot, ?_, ?_⟩
    · apply Bool.eq_false_iff.mpr
      intro h
      have := FS.existsPath_move_mono S2 _ _ _
        (fun hc => hs1 ((List.prefix_append (P ++ ["sequences"]) _).trans hc)) h
      rw [hS2nex1] at this
      cases this
    · apply Bool.eq_false_iff.mpr
      intro h
      have := FS.existsPath_move_mono S2 _ _ _
        (fun hc => hs2 ((List.prefix_append (P ++ ["sequences"]) _).trans hc)) h
      rw [hS2nex2] at this
      cases this
  · rw [if_neg hex]
    exact ⟨hS2slot, hS2nex1, hS2nex2⟩

/-- Witness for C5 on the concrete two-project workspace: sequences ends
up holding f.txt with the content of the second project, and both
project directories are gone. -/
theorem C5_merge_collision_last_wins_witness :
    (move_files_to_sequences_and_merge fsMerge [prOne, prTwo]).fileEntry
      (["w"] ++ ["sequences"] ++ ["f.txt"]) = some ("two", true) ∧
    (move_files_to_sequences_and_merge fsMerge [prOne, prTwo]).existsPath
      (["w"] ++ ["p1"]) = false ∧
    (move_files_to_sequences_and_merge fsMerge [prOne, prTwo]).existsPath
      (["w"] ++ ["p2"]) = false := by
  refine C5_merge_collision_last_wins fsMerge ["w"] ["sub"] [] "p1" "p2" "f.txt"
    ("one", true) ("two", true) prOne prTwo (by decide) (by decide) (by decide) (by decide)
    (by decide) (by decide) (by decide) (by decide) (by decide) ?_ (by decide) ?_
    (by decide) ?_ (by decide) ?_ (by decide)
  · intro i hi
    have : i = 0 ∨ i = 1 := by simp at hi; omega
    rcases this with rfl | rfl <;> decide
  · intro q e' hq hpre hlast
    have hqm : q ∈ fsMerge.files.map (fun e => e.1) := by
      have := (FS.fileEntry_isSome_iff fsMerge q).mp (by rw [hq]; rfl)
      obtain ⟨e0, he0, he1⟩ := this
      exact List.mem_map.mpr ⟨e0, he0, he1⟩
    have hqe : q = ["w", "p1", "sub", "f.txt"] ∨ q = ["w", "p2", "f.txt"] := by
      simpa [fsMerge] using hqm
    rcases hqe with rfl | rfl
    · rfl
    · exact absurd hpre (by decide)
  · intro i hi
    have : i = 0 := by simpa using hi
    subst this
    decide
  · intro q e' hq hpre hlast
    have hqm : q ∈ fsMerge.files.map (fun e => e.1) := by
      have := (FS.fileEntry_isSome_iff fsMerge q).mp (by rw [hq]; rfl)
      obtain ⟨e0, he0, he1⟩ := this
      exact List.mem_map.mpr ⟨e0, he0, he1⟩
    have hqe : q = ["w", "p1", "sub", "f.txt"] ∨ q = ["w", "p2", "f.txt"] := by
      simpa [fsMerge] using hqm
    rcases hqe with rfl | rfl
    · exact absurd hpre (by decide)
    · rfl

/-- Prefix between two equal-length two-extensions of a common base
forces both extension components equal. -/
theorem pair_prefix_pair {P : Path} {a b c d : String}
    (h : P ++ [a] ++ [b] <+: P ++ [c] ++ [d]) : a = c ∧ b = d := by
  have h2 : P ++ ([a] ++ [b]) <+: P ++ ([c] ++ [d]) := by simpa [List.append_assoc] using h
  rw [List.prefix_append_right_inj] at h2
  simp only [List.singleton_append, List.cons_prefix_cons, List.nil_prefix, and_true] at h2
  exact h2

/-- mkdirs makes its own full argument a directory. -/
theorem isDir_mkdirs_self (fs : FS) (p : Path) (hne : p ≠ []) : (fs.mkdirs p).isDir p = true := by
  refine (FS.isDir_mkdirs_iff fs p p).mpr (Or.inl ⟨p.length - 1, ?_, ?_⟩)
  · have h := List.length_pos.mpr hne
    omega
  · have h := List.length_pos.mpr hne
    rw [show p.length - 1 + 1 = p.length from by omega, List.take_length]

/-- One child move of the configurations branch never touches the
sequences slot of a name w, the project directory, or the sequences
directory itself. -/
theorem configStep_static (P : Path) (pl w m : String) (acc : FS)
    (hpls : pl ≠ "sequences") (hws : w ≠ "sequences")
    (hI4 : acc.isDir (P ++ [pl]) = true) (hI5 : acc.isDir (P ++ ["sequences"]) = true) :
    (acc.move (P ++ [pl] ++ [m]) (P ++ [m])).fileEntry (P ++ ["sequences"] ++ [w])
      = acc.fileEntry (P ++ ["sequences"] ++ [w]) ∧
    (acc.move (P ++ [pl] ++ [m]) (P ++ [m])).isDir (P ++ ["sequences"] ++ [w])
      = acc.isDir (P ++ ["sequences"] ++ [w]) ∧
    (acc.move (P ++ [pl] ++ [m]) (P ++ [m])).isDir (P ++ [pl]) = acc.isDir (P ++ [pl]) ∧
    (acc.move (P ++ [pl] ++ [m]) (P ++ [m])).isDir (P ++ ["sequences"])
      = acc.isDir (P ++ ["sequences"]) := by
  have hs5 : ¬ (P ++ [pl] ++ [m]) <+: (P ++ ["sequences"] ++ [w]) :=
    fun hc => hpls (pair_prefix_pair hc).1
  have hd5 : ¬ (P ++ [m] ++ [m]) <+: (P ++ ["sequences"] ++ [w]) := by
    intro hc
    have h := pair_prefix_pair hc
    refine hws ?_
    rw [← h.2]
    exact h.1
  have hc5 : acc.isDir (P ++ [m]) = true ∨ ¬ (P ++ [m]) <+: (P ++ ["sequences"] ++ [w]) := by
    by_cases hm : m = "sequences"
    · subst hm
      exact Or.inl hI5
    · exact Or.inr (fun hc => hm (snoc_prefix_snoc_append hc))
  have hs3 : ¬ (P ++ [pl] ++ [m]) <+: (P ++ [pl]) := by
    refine not_prefix_of_longer ?_
    simp only [List.length_append, List.length_cons, List.length_nil]
    omega
  have hd3 : ¬ (P ++ [m] ++ [m]) <+: (P ++ [pl]) := by
    refine not_prefix_of_longer ?_
    simp only [List.length_append, List.length_cons, List.length_nil]
    omega
  have hc3 : acc.isDir (P ++ [m]) = true ∨ ¬ (P ++ [m]) <+: (P ++ [pl]) := by
    by_cases hm : m = pl
    · subst hm
      exact Or.inl hI4
    · exact Or.inr (fun hc => hm (snoc_prefix_snoc_iff.mp hc))
  have hs4 : ¬ (P ++ [pl] ++ [m]) <+: (P ++ ["sequences"]) := by
    refine not_prefix_of_longer ?_
    simp only [List.length_append, List.length_cons, List.length_nil]
    omega
  have hd4 : ¬ (P ++ [m] ++ [m]) <+: (P ++ ["sequences"]) := by
    refine not_prefix_of_longer ?_
    simp only [List.length_append, List.length_cons, List.length_nil]
    omega
  have hc4 : acc.isDir (P ++ [m]) = true ∨ ¬ (P ++ [m]) <+: (P ++ ["sequences"]) := by
    by_cases hm : m = "sequences"
    · subst hm
      exact Or.inl hI5
    · exact Or.inr (fun hc => hm (snoc_prefix_snoc_iff.mp hc))
  refine ⟨?_, ?_, ?_, ?_⟩
  · refine FS.fileEntry_move_step_frame acc _ _ _ hs5 ?_ hc5
    rw [List.getLastD_concat]
    exact hd5
  · refine FS.isDir_move_step_frame acc _ _ _ hs5 ?_ hc5
    rw [List.getLastD_concat]
    exact hd5
  · refine FS.isDir_move_step_frame acc _ _ _ hs3 ?_ hc3
    rw [List.getLastD_concat]
    exact hd3
  · refine FS.isDir_move_step_frame acc _ _ _ hs4 ?_ hc4
    rw [List.getLastD_concat]
    exact hd4

/-- One child move of the configurations branch for a child name other
than w leaves both the source slot and the parent slot of w alone. -/
theorem configStep_target (P : Path) (pl w m : String) (acc : FS)
    (hplw : pl ≠ w) (hmw : m ≠ w) (hI4 : acc.isDir (P ++ [pl]) = true) :
    (acc.move (P ++ [pl] ++ [m]) (P ++ [m])).fileEntry (P ++ [pl] ++ [w])
      = acc.fileEntry (P ++ [pl] ++ [w]) ∧
    (acc.move (P ++ [pl] ++ [m]) (P ++ [m])).isDir (P ++ [pl] ++ [w])
      = acc.isDir (P ++ [pl] ++ [w]) ∧
    (acc.move (P ++ [pl] ++ [m]) (P ++ [m])).fileEntry (P ++ [w]) = acc.fileEntry (P ++ [w]) ∧
    (acc.move (P ++ [pl] ++ [m]) (P ++ [m])).isDir (P ++ [w]) = acc.isDir (P ++ [w]) := by
  have hs1 : ¬ (P ++ [pl] ++ [m]) <+: (P ++ [pl] ++ [w]) :=
    fun hc => hmw (snoc_prefix_snoc_iff.mp hc)
  have hd1 : ¬ (P ++ [m] ++ [m]) <+: (P ++ [pl] ++ [w]) := by
    intro hc
    have h := pair_prefix_pair hc
    refine hplw ?_
    rw [← h.1]
    exact h.2
  have hc1 : acc.isDir (P ++ [m]) = true ∨ ¬ (P ++ [m]) <+: (P ++ [pl] ++ [w]) := by
    by_cases hm : m = pl
    · subst hm
      exact Or.inl hI4
    · exact Or.inr (fun hc => hm (snoc_prefix_snoc_append hc))
  have hs2 : ¬ (P ++ [pl] ++ [m]) <+: (P ++ [w]) := by
    refine not_prefix_of_longer ?_
    simp only [List.length_append, List.length_cons, List.length_nil]
    omega
  have hd2m : ¬ (P ++ [m] ++ [m]) <+: (P ++ [w]) := by
    refine not_prefix_of_longer ?_
    simp only [List.length_append, List.length_cons, List.length_nil]
    omega
  have hc2 : acc.isDir (P ++ [m]) = true ∨ ¬ (P ++ [m]) <+: (P ++ [w]) :=
    Or.inr (fun hc => hmw (snoc_prefix_snoc_iff.mp hc))
  refine ⟨?_, ?_, ?_, ?_⟩
  · refine FS.fileEntry_move_step_frame acc _ _ _ hs1 ?_ hc1
    rw [List.getLastD_concat]
    exact hd1
  · refine FS.isDir_move_step_frame acc _ _ _ hs1 ?_ hc1
    rw [List.getLastD_concat]
    exact hd1
  · refine FS.fileEntry_move_step_frame acc _ _ _ hs2 ?_ hc2
    rw [List.getLastD_concat]
    exact hd2m
  · refine FS.isDir_move_step_frame acc _ _ _ hs2 ?_ hc2
    rw [List.getLastD_concat]
    exact hd2m

/-- The child-move fold of the configurations branch over names all
different from w preserves the parent slot of w and the sequences slot
of w. -/
theorem configFold_tail (P : Path) (pl w : String)
    (hplw : pl ≠ w) (hpls : pl ≠ "sequences") (hws : w ≠ "sequences") :
    ∀ (l : List String) (acc : FS), (∀ m ∈ l, m ≠ w) →
    acc.isDir (P ++ [pl]) = true → acc.isDir (P ++ ["sequences"]) = true →
    ((l.foldl (fun a m => a.move (P ++ [pl] ++ [m]) (P ++ [m])) acc).fileEntry (P ++ [w])
        = acc.fileEntry (P ++ [w])) ∧
    ((l.foldl (fun a m => a.move (P ++ [pl] ++ [m]) (P ++ [m])) acc).fileEntry
        (P ++ ["sequences"] ++ [w]) = acc.fileEntry (P ++ ["sequences"] ++ [w])) ∧
    ((l.foldl (fun a m => a.move (P ++ [pl] ++ [m]) (P ++ [m])) acc).isDir
        (P ++ ["sequences"] ++ [w]) = acc.isDir (P ++ ["sequences"] ++ [w])) := by
  intro l
  induction l with
  | nil =>
    intro acc _ _ _
    exact ⟨rfl, rfl, rfl⟩
  | cons m rest ih =>
    intro acc hm hI4 hI5
    simp only [List.foldl_cons]
    have hst := configStep_static P pl w m acc hpls hws hI4 hI5
    have htg := configStep_target P pl w m acc hplw (hm m (List.mem_cons_self m rest)) hI4
    have hI4n : (acc.move (P ++ [pl] ++ [m]) (P ++ [m])).isDir (P ++ [pl]) = true :=
      hst.2.2.1.trans hI4
    have hI5n : (acc.move (P ++ [pl] ++ [m]) (P ++ [m])).isDir (P ++ ["sequences"]) = true :=
      hst.2.2.2.trans hI5
    have hrec := ih _ (fun x hx => hm x (List.mem_cons_of_mem m hx)) hI4n hI5n
    exact ⟨hrec.1.trans htg.2.2.1, hrec.2.1.trans hst.1, hrec.2.2.trans hst.2.1⟩

/-- The child-move fold of the configurations branch places the file of
a listed child name w at the parent slot of w, while keeping the
sequences slot of w exactly as it was. -/
theorem configFold_places (P : Path) (pl w : String) (e : String × Bool)
    (hplw : pl ≠ w) (hpls : pl ≠ "sequences") (hws : w ≠ "sequences") :
    ∀ (names : List String) (acc : FS), names.Nodup → w ∈ names →
    acc.fileEntry (P ++ [pl] ++ [w]) = some e →
    acc.isDir (P ++ [pl] ++ [w]) = false →
    acc.isDir (P ++ [w]) = false →
    acc.isDir (P ++ [pl]) = true →
    acc.isDir (P ++ ["sequences"]) = true →
    ((names.foldl (fun a m => a.move (P ++ [pl] ++ [m]) (P ++ [m])) acc).fileEntry (P ++ [w])
        = some e) ∧
    ((names.foldl (fun a m => a.move (P ++ [pl] ++ [m]) (P ++ [m])) acc).fileEntry
        (P ++ ["sequences"] ++ [w]) = acc.fileEntry (P ++ ["sequences"] ++ [w])) ∧
    ((names.foldl (fun a m => a.move (P ++ [pl] ++ [m]) (P ++ [m])) acc).isDir
        (P ++ ["sequences"] ++ [w]) = acc.isDir (P ++ ["sequences"] ++ [w])) := by
  intro names
  induction names with
  | nil =>
    intro acc _ hw
    cases hw
  | cons m rest ih =>
    intro acc hnd hw hI1 hI2 hI3 hI4 hI5
    simp only [List.foldl_cons]
    by_cases hmw : m = w
    · subst hmw
      have hM1 : (acc.move (P ++ [pl] ++ [m]) (P ++ [m])).fileEntry (P ++ [m]) = some e :=
        FS.fileEntry_move_file_dst acc _ _ e hI2 hI1 hI3
      have hst := configStep_static P pl m m acc hpls hws hI4 hI5
      have hI4n := hst.2.2.1.trans hI4
      have hI5n := hst.2.2.2.trans hI5
      have hwrest : ∀ x ∈ rest, x ≠ m := fun x hx hxm => (List.nodup_cons.mp hnd).1 (hxm ▸ hx)
      have ht := configFold_tail P pl m hplw hpls hws rest _ hwrest hI4n hI5n
      exact ⟨ht.1.trans hM1, ht.2.1.trans hst.1, ht.2.2.trans hst.2.1⟩
    · have hwr : w ∈ rest := by
        rcases List.mem_cons.mp hw with h | h
        · exact absurd h.symm hmw
        · exact h
      have hst := configStep_static P pl w m acc hpls hws hI4 hI5
      have htg := configStep_target P pl w m acc hplw hmw hI4
      have hrec := ih _ (List.nodup_cons.mp hnd).2 hwr
        (htg.1.trans hI1) (htg.2.1.trans hI2) (htg.2.2.2.trans hI3)
        (hst.2.2.1.trans hI4) (hst.2.2.2.trans hI5)
      exact ⟨hrec.1, hrec.2.1.trans hst.1, hrec.2.2.trans hst.2.1⟩

/-- C7: for a project named exactly configurations whose directory
exists and holds the files x.json and y.json, reorganization leaves both
files in the parent directory of the sequences directory, not in the
sequences directory itself (their sequences slots stay absent), and the
configurations directory no longer exists. -/
theorem C7_configurations_files_to_parent (fs : FS) (P : Path) (pl : String)
    (ex ey : String × Bool) (cfg : Project)
    (hcpath : cfg.path = some (P ++ [pl])) (hcname : cfg.name = some "configurations")
    (hpls : pl ≠ "sequences") (hplx : pl ≠ "x.json") (hply : pl ≠ "y.json")
    (hfx : fs.fileEntry (P ++ [pl] ++ ["x.json"]) = some ex)
    (hfy : fs.fileEntry (P ++ [pl] ++ ["y.json"]) = some ey)
    (hdx : fs.isDir (P ++ [pl] ++ ["x.json"]) = false)
    (hdy : fs.isDir (P ++ [pl] ++ ["y.json"]) = false)
    (hPx : fs.isDir (P ++ ["x.json"]) = false)
    (hPy : fs.isDir (P ++ ["y.json"]) = false)
    (hdirp : fs.isDir (P ++ [pl]) = true)
    (hseqd : fs.existsPath (P ++ ["sequences"]) = true → fs.isDir (P ++ ["sequences"]) = true)
    (hsx : fs.existsPath (P ++ ["sequences"] ++ ["x.json"]) = false)
    (hsy : fs.existsPath (P ++ ["sequences"] ++ ["y.json"]) = false) :
    (move_files_to_sequences_and_merge fs [cfg]).fileEntry (P ++ ["x.json"]) = some ex ∧
    (move_files_to_sequences_and_merge fs [cfg]).fileEntry (P ++ ["y.json"]) = some ey ∧
    (move_files_to_sequences_and_merge fs [cfg]).existsPath (P ++ [pl]) = false ∧
    (move_files_to_sequences_and_merge fs [cfg]).existsPath
      (P ++ ["sequences"] ++ ["x.json"]) = false ∧
    (move_files_to_sequences_and_merge fs [cfg]).existsPath
      (P ++ ["sequences"] ++ ["y.json"]) = false := by
  have hseqOf : seqPathOf [cfg] = some (P ++ ["sequences"]) := by
    unfold seqPathOf
    have hf : List.find? (fun pr => truthyPath pr.path) [cfg] = some cfg :=
      List.find?_cons_of_pos []
        (by show truthyPath cfg.path = true; rw [hcpath]; simp [truthyPath])
    simp only [hf, hcpath, List.dropLast_concat]
  have hexC : ∀ (st : FS) (q : Path), st.existsPath q = false →
      st.isDir q = false ∧ (st.fileEntry q).isSome = false := by
    intro st q h
    constructor
    · apply Bool.eq_false_iff.mpr
      intro hd
      have := (FS.existsPath_iff st q).mpr (Or.inl hd)
      rw [h] at this
      cases this
    · apply Bool.eq_false_iff.mpr
      intro hd
      have := (FS.existsPath_iff st q).mpr (Or.inr hd)
      rw [h] at this
      cases this
  have hexF2 : ∀ (st : FS) (q : Path), st.isDir q = false →
      (st.fileEntry q).isSome = false → st.existsPath q = false := by
    intro st q h1 h2
    apply Bool.eq_false_iff.mpr
    intro h
    rcases (FS.existsPath_iff st q).mp h with hh | hh
    · rw [h1] at hh
      cases hh
    · rw [h2] at hh
      cases hh
  have hlen2not : ∀ (a b : String), ¬ (P ++ [a] ++ [b]) <+: (P ++ ["sequences"]) := by
    intro a b
    refine not_prefix_of_longer ?_
    simp only [List.length_append, List.length_cons, List.length_nil]
    omega
  have hsnot : ∀ (a : String), a ≠ "sequences" → ¬ (P ++ [a]) <+: (P ++ ["sequences"]) := by
    intro a ha hc
    exact ha (snoc_prefix_snoc_iff.mp hc)
  set fs1 := (if fs.existsPath (P ++ ["sequences"]) = true then fs
    else fs.mkdirs (P ++ ["sequences"])) with hfs1
  have hfs1fe : ∀ q, fs1.fileEntry q = fs.fileEntry q := by
    intro q
    rw [hfs1]
    by_cases h : fs.existsPath (P ++ ["sequences"]) = true
    · rw [if_pos h]
    · rw [if_neg h]
      exact FS.fileEntry_mkdirs fs _ q
  have hfs1dT : ∀ q, fs.isDir q = true → fs1.isDir q = true := by
    intro q h
    rw [hfs1]
    by_cases hc : fs.existsPath (P ++ ["sequences"]) = true
    · rw [if_pos hc]
      exact h
    · rw [if_neg hc]
      exact isDir_mkdirs_true fs _ q h
  have hfs1dF : ∀ q, ¬ q <+: (P ++ ["sequences"]) → fs.isDir q = false → fs1.isDir q = false := by
    intro q hq h
    rw [hfs1]
    by_cases hc : fs.existsPath (P ++ ["sequences"]) = true
    · rw [if_pos hc]
      exact h
    · rw [if_neg hc]
      exact isDir_mkdirs_false fs _ q hq h
  have hfs1seq : fs1.isDir (P ++ ["sequences"]) = true := by
    rw [hfs1]
    by_cases hc : fs.existsPath (P ++ ["sequences"]) = true
    · rw [if_pos hc]
      exact hseqd hc
    · rw [if_neg hc]
      exact isDir_mkdirs_self fs _ (by simp)
  have h1s : ∀ (b : String), fs.existsPath (P ++ ["sequences"] ++ [b]) = false →
      fs1.existsPath (P ++ ["sequences"] ++ [b]) = false := by
    intro b hb
    rw [hfs1]
    by_cases hc : fs.existsPath (P ++ ["sequences"]) = true
    · rw [if_pos hc]
      exact hb
    · rw [if_neg hc]
      refine hexF2 _ _ ?_ ?_
      · exact isDir_mkdirs_false fs _ _ (hlen2not "sequences" b) (hexC _ _ hb).1
      · rw [FS.fileEntry_mkdirs]
        exact (hexC _ _ hb).2
  have h1fx : fs1.fileEntry (P ++ [pl] ++ ["x.json"]) = some ex := by
    rw [hfs1fe]
    exact hfx
  have h1fy : fs1.fileEntry (P ++ [pl] ++ ["y.json"]) = some ey := by
    rw [hfs1fe]
    exact hfy
  have h1dx : fs1.isDir (P ++ [pl] ++ ["x.json"]) = false := hfs1dF _ (hlen2not pl "x.json") hdx
  have h1dy : fs1.isDir (P ++ [pl] ++ ["y.json"]) = false := hfs1dF _ (hlen2not pl "y.json") hdy
  have h1Px : fs1.isDir (P ++ ["x.json"]) = false := hfs1dF _ (hsnot _ (by decide)) hPx
  have h1Py : fs1.isDir (P ++ ["y.json"]) = false := hfs1dF _ (hsnot _ (by decide)) hPy
  have h1dirp : fs1.isDir (P ++ [pl]) = true := hfs1dT _ hdirp
  have h1exp : fs1.existsPath (P ++ [pl]) = true :=
    (FS.existsPath_iff fs1 _).mpr (Or.inl h1dirp)
  have hmemx : "x.json" ∈ fs1.listdir (P ++ [pl]) :=
    (FS.mem_listdir_iff fs1 _ _).mpr (Or.inr (by rw [h1fx]; rfl))
  have hmemy : "y.json" ∈ fs1.listdir (P ++ [pl]) :=
    (FS.mem_listdir_iff fs1 _ _).mpr (Or.inr (by rw [h1fy]; rfl))
  have hre : move_files_to_sequences_and_merge fs [cfg] =
      moveSequenceConfig (processProject (P ++ ["sequences"]) fs1 cfg) (P ++ ["sequences"]) := by
    unfold move_files_to_sequences_and_merge
    rw [hseqOf]
    rfl
  have hproc : processProject (P ++ ["sequences"]) fs1 cfg =
      ((fs1.listdir (P ++ [pl])).foldl
        (fun acc m => acc.move (P ++ [pl] ++ [m]) ((P ++ ["sequences"]).dropLast ++ [m]))
        fs1).rmtree (P ++ [pl]) :=
    processProject_config_eq _ fs1 cfg _ hcpath (by simp) h1exp hcname
  rw [hre, hproc]
  simp only [List.dropLast_concat]
  have hFx := configFold_places P pl "x.json" ex hplx hpls (by decide)
    (fs1.listdir (P ++ [pl])) fs1 (FS.nodup_listdir fs1 _) hmemx h1fx h1dx h1Px h1dirp hfs1seq
  have hFy := configFold_places P pl "y.json" ey hply hpls (by decide)
    (fs1.listdir (P ++ [pl])) fs1 (FS.nodup_listdir fs1 _) hmemy h1fy h1dy h1Py h1dirp hfs1seq
  set CF := (fs1.listdir (P ++ [pl])).foldl
    (fun acc m => acc.move (P ++ [pl] ++ [m]) (P ++ [m])) fs1 with hCF
  set R := CF.rmtree (P ++ [pl]) with hR
  have hRfx : R.fileEntry (P ++ ["x.json"]) = some ex := by
    rw [hR, FS.fileEntry_rmtree, if_neg (fun hc => hplx (snoc_prefix_snoc_iff.mp hc))]
    exact hFx.1
  have hRfy : R.fileEntry (P ++ ["y.json"]) = some ey := by
    rw [hR, FS.fileEntry_rmtree, if_neg (fun hc => hply (snoc_prefix_snoc_iff.mp hc))]
    exact hFy.1
  have hRnexp : R.existsPath (P ++ [pl]) = false := existsPath_rmtree_under CF _ _ List.prefix_rfl
  have hCFsx : CF.existsPath (P ++ ["sequences"] ++ ["x.json"]) = false := by
    have hc := hexC fs1 _ (h1s "x.json" hsx)
    refine hexF2 CF _ ?_ ?_
    · rw [hCF]
      rw [hFx.2.2]
      exact hc.1
    · rw [hCF]
      rw [hFx.2.1]
      exact hc.2
  have hCFsy : CF.existsPath (P ++ ["sequences"] ++ ["y.json"]) = false := by
    have hc := hexC fs1 _ (h1s "y.json" hsy)
    refine hexF2 CF _ ?_ ?_
    · rw [hCF]
      rw [hFy.2.2]
      exact hc.1
    · rw [hCF]
      rw [hFy.2.1]
      exact hc.2
  have hRsx : R.existsPath (P ++ ["sequences"] ++ ["x.json"]) = false := by
    apply Bool.eq_false_iff.mpr
    intro h
    rw [hR] at h
    have := existsPath_rmtree_mono CF _ _ h
    rw [hCFsx] at this
    cases this
  have hRsy : R.existsPath (P ++ ["sequences"] ++ ["y.json"]) = false := by
    apply Bool.eq_false_iff.mpr
    intro h
    rw [hR] at h
    have := existsPath_rmtree_mono CF _ _ h
    rw [hCFsy] at this
    cases this
  unfold moveSequenceConfig
  by_cases hex2 : R.existsPath ((P ++ ["sequences"]).dropLast ++ ["sequence_config.json"]) = true
  · rw [if_pos hex2]
    have hPd : (P ++ ["sequences"]).dropLast = P := List.dropLast_concat
    have hfr : ∀ (w : String), w ≠ "sequence_config.json" →
        (R.move ((P ++ ["sequences"]).dropLast ++ ["sequence_config.json"])
          (P ++ ["sequences"] ++ ["sequence_config.json"])).fileEntry (P ++ [w])
          = R.fileEntry (P ++ [w]) := by
      intro w hw
      refine FS.fileEntry_move_step_frame R _ _ _ ?_ ?_ (Or.inr ?_)
      · rw [hPd]
        exact fun hc => hw ((snoc_prefix_snoc_iff.mp hc).symm)
      · rw [hPd, List.getLastD_concat]
        refine not_prefix_of_longer ?_
        simp only [List.length_append, List.length_cons, List.length_nil]
        omega
      · refine not_prefix_of_longer ?_
        simp only [List.length_append, List.length_cons, List.length_nil]
        omega
    have hexfr : ∀ (q : Path), ¬ (P ++ ["sequences"] ++ ["sequence_config.json"]) <+: q →
        R.existsPath q = false →
        (R.move ((P ++ ["sequences"]).dropLast ++ ["sequence_config.json"])
          (P ++ ["sequences"] ++ ["sequence_config.json"])).existsPath q = false := by
      intro q hq h
      apply Bool.eq_false_iff.mpr
      intro hh
      have := FS.existsPath_move_mono R _ _ _ hq hh
      rw [h] at this
      cases this
    refine ⟨(hfr "x.json" (by decide)).trans hRfx, (hfr "y.json" (by decide)).trans hRfy,
      ?_, ?_, ?_⟩
    · refine hexfr _ ?_ hRnexp
      refine not_prefix_of_longer ?_
      simp only [List.length_append, List.length_cons, List.length_nil]
      omega
    · exact hexfr _ (fun hc => absurd (snoc_prefix_snoc_iff.mp hc) (by decide)) hRsx
    · exact hexfr _ (fun hc => absurd (snoc_prefix_snoc_iff.mp hc) (by decide)) hRsy
  · rw [if_neg hex2]
    exact ⟨hRfx, hRfy, hRnexp, hRsx, hRsy⟩

/-- Witness for C7 on the concrete configurations workspace: x.json and
y.json end up directly under w, the parent of w/sequences, their
sequences slots stay absent, and w/configurations is gone. -/
theorem C7_configurations_files_to_parent_witness :
    (move_files_to_sequences_and_merge fsConfigs [prConfigs]).fileEntry
      (["w"] ++ ["x.json"]) = some ("X", true) ∧
    (move_files_to_sequences_and_merge fsConfigs [prConfigs]).fileEntry
      (["w"] ++ ["y.json"]) = some ("Y", true) ∧
    (move_files_to_sequences_and_merge fsConfigs [prConfigs]).existsPath
      (["w"] ++ ["configurations"]) = false ∧
    (move_files_to_sequences_and_merge fsConfigs [prConfigs]).existsPath
      (["w"] ++ ["sequences"] ++ ["x.json"]) = false ∧
    (move_files_to_sequences_and_merge fsConfigs [prConfigs]).existsPath
      (["w"] ++ ["sequences"] ++ ["y.json"]) = false :=
  C7_configurations_files_to_parent fsConfigs ["w"] "configurations" ("X", true) ("Y", true)
    prConfigs (by decide) (by decide) (by decide) (by decide) (by decide) (by decide) (by decide)
    (by decide) (by decide) (by decide) (by decide) (by decide) (by decide) (by decide) (by decide)

end Brolga
